import Mathlib

/- Verification of the graph-algorithm kernels of a collection of
graph-theory animation scripts: BFS (bfs.py), DFS in recursive and
iterative form (dfs.py), Dijkstra (dijkstra.py), a Hierholzer-style
Eulerian trail walk (eulerian_path.py) and a scripted Hamiltonian
backtracking run (hamiltonian_path.py).  Graphs are vertex lists with
undirected edge lists, exactly as hardcoded in the scripts. -/

/-- An undirected edge between `u` and `v` exists when either
orientation occurs in the edge list. -/
def isEdge (E : List (Nat × Nat)) (u v : Nat) : Prop :=
  (u, v) ∈ E ∨ (v, u) ∈ E

instance (E : List (Nat × Nat)) (u v : Nat) : Decidable (isEdge E u v) := by
  unfold isEdge; infer_instance

/-- Ascending sort, modelling the Python `list.sort()` calls. -/
def sortNat (l : List Nat) : List Nat := List.insertionSort (· ≤ ·) l

/-- Unsorted neighbor multiset of `v`: the scripts append the opposite
endpoint of every incident edge occurrence, in edge-list order
(`adj[u].append(v); adj[v].append(u)`). -/
def rawNbrs (E : List (Nat × Nat)) (v : Nat) : List Nat :=
  E.flatMap (fun uv =>
    (if uv.1 = v then [uv.2] else []) ++ (if uv.2 = v then [uv.1] else []))

/-- Sorted adjacency list, as built by bfs.py lines 238-244 and
dfs.py lines 710-716. -/
def adjOf (E : List (Nat × Nat)) (v : Nat) : List Nat := sortNat (rawNbrs E v)

/-- The 7-vertex example graph shared by bfs.py (line 38), dfs.py
(line 18) and dijkstra.py (line 843). -/
def exVerts : List Nat := [0, 1, 2, 3, 4, 5, 6]

/-- The example edge list shared by bfs.py (line 39), dfs.py (line 19)
and dijkstra.py (line 844). -/
def exEdges : List (Nat × Nat) :=
  [(0, 1), (0, 2), (1, 3), (1, 4), (2, 5), (3, 6), (4, 6)]

/- ============================================================
BFS kernel (bfs.py, BFSQueueVisualization.construct, lines 238-329)
============================================================ -/

/-- State of the BFS loop of bfs.py.  `distances v = none` models the
Python value `float("inf")`; `dist_writes` logs every execution of the
guarded assignment `distances[nbr] = distances[node] + 1` (plus the
initial `distances[start] = 0`), and `enq_log`/`deq_log` record every
enqueue and dequeue chronologically. -/
structure BfsState where
  queue : List (Nat × Option Nat)
  in_queue : List Nat
  visited : List Nat
  traversal_order : List Nat
  distances : Nat → Option Nat
  dist_writes : List Nat
  tree_edges : List (Nat × Nat)
  enq_log : List Nat
  deq_log : List Nat

/-- One neighbor inspection of the BFS loop body (bfs.py lines
317-329): guarded by the in-queue-or-visited check, the neighbor is
appended to the queue, its tree edge recorded, its distance written
when still infinity, and it is marked in-queue. -/
def bfsRelax (node : Nat) (s : BfsState) (nbr : Nat) : BfsState :=
  if nbr ∈ s.visited ∨ nbr ∈ s.in_queue then s
  else if (s.distances nbr).isNone then
    { s with
        distances := fun x =>
          if x = nbr then (s.distances node).map (· + 1) else s.distances x
        dist_writes := s.dist_writes ++ [nbr]
        queue := s.queue ++ [(nbr, some node)]
        tree_edges := s.tree_edges ++ [(min node nbr, max node nbr)]
        in_queue := nbr :: s.in_queue
        enq_log := s.enq_log ++ [nbr] }
  else
    { s with
        queue := s.queue ++ [(nbr, some node)]
        tree_edges := s.tree_edges ++ [(min node nbr, max node nbr)]
        in_queue := nbr :: s.in_queue
        enq_log := s.enq_log ++ [nbr] }

/-- One iteration of the BFS while-loop (bfs.py lines 259-329):
dequeue the head, discard it from the in-queue set, skip it when
already visited, otherwise visit it and inspect its sorted neighbors. -/
def bfsStep (adj : Nat → List Nat) (s : BfsState) : BfsState :=
  match s.queue with
  | [] => s
  | (node, _) :: rest =>
    let s1 := { s with
        queue := rest
        in_queue := s.in_queue.filter (· ≠ node)
        deq_log := s.deq_log ++ [node] }
    if node ∈ s1.visited then s1
    else
      let s2 := { s1 with
          visited := node :: s1.visited
          traversal_order := s1.traversal_order ++ [node] }
      (adj node).foldl (bfsRelax node) s2

/-- Fuel-indexed BFS while-loop; the loop exits when the queue is
empty, and the fuel is a bound on the number of iterations. -/
def bfsLoop (adj : Nat → List Nat) : Nat → BfsState → BfsState
  | 0, s => s
  | fuel + 1, s =>
    match s.queue with
    | [] => s
    | _ :: _ => bfsLoop adj fuel (bfsStep adj s)

/-- Initial BFS state (bfs.py lines 246-257): the source is enqueued
with distance 0. -/
def bfsInit (start : Nat) : BfsState :=
  { queue := [(start, none)]
    in_queue := [start]
    visited := []
    traversal_order := []
    distances := fun x => if x = start then some 0 else none
    dist_writes := [start]
    tree_edges := []
    enq_log := [start]
    deq_log := [] }

/-- The full BFS kernel on a graph given by vertex list `V` and edge
list `E`, from source `start`.  `V.length + 1` iterations always
suffice because each vertex is enqueued at most once. -/
def bfsRun (V : List Nat) (E : List (Nat × Nat)) (start : Nat) : BfsState :=
  bfsLoop (adjOf E) (V.length + 1) (bfsInit start)

/-- Distance table restricted to a vertex list, for readable statements. -/
def distList (d : Nat → Option Nat) (vs : List Nat) : List (Option Nat) :=
  vs.map d

/-- C1: on the 7-vertex example graph with edges
(0,1),(0,2),(1,3),(1,4),(2,5),(3,6),(4,6), BFS from source 0 with
sorted neighbor order produces distances 0,1,1,2,2,2,3 for vertices
0..6 and the visitation order [0,1,2,3,4,5,6]. -/
theorem bfs_example_correct :
    distList (bfsRun exVerts exEdges 0).distances exVerts =
      [some 0, some 1, some 1, some 2, some 2, some 2, some 3] ∧
    (bfsRun exVerts exEdges 0).traversal_order = [0, 1, 2, 3, 4, 5, 6] := by
  decide

/- ============================================================
Dijkstra kernel (dijkstra.py, run_dijkstra_example, lines 228-514)
============================================================ -/

/-- Weighted adjacency list, as built by dijkstra.py lines 229-233:
for each edge occurrence `(u, v)` with weight `w`, `(v, w)` is
appended to `adj[u]` and `(u, w)` to `adj[v]`, in edge-list order. -/
def adjW (E : List (Nat × Nat)) (w : Nat × Nat → Nat) (v : Nat) :
    List (Nat × Nat) :=
  E.flatMap (fun uv =>
    (if uv.1 = v then [(uv.2, w uv)] else []) ++
      (if uv.2 = v then [(uv.1, w uv)] else []))

/-- Strict comparison on tentative distances, where `none` models the
Python value `float("inf")`. -/
def optLT (a b : Option Nat) : Bool :=
  match a, b with
  | some x, some y => x < y
  | some _, none => true
  | none, _ => false

/-- Lexicographic order on `(distance, vertex)` pairs, the order in
which `heapq` pops them. -/
def pairLe (a b : Nat × Nat) : Bool :=
  a.1 < b.1 || (a.1 = b.1 && a.2 ≤ b.2)

/-- Pop the lexicographically least `(distance, vertex)` pair, the
observable behavior of `heapq.heappop` on the binary heap. -/
def popMin : List (Nat × Nat) → Option ((Nat × Nat) × List (Nat × Nat))
  | [] => none
  | a :: rest =>
    match popMin rest with
    | none => some (a, [])
    | some (m, rest') =>
      if pairLe a m then some (a, rest) else some (m, a :: rest')

/-- State of the Dijkstra loop of dijkstra.py.  `distances v = none`
models `float("inf")`; `relax_log` records, for every edge examined in
the relaxation loop, the tuple (u, v, weight, accepted). -/
structure DijkState where
  pq : List (Nat × Nat)
  visited : List Nat
  traversal_order : List Nat
  distances : Nat → Option Nat
  parent : Nat → Option Nat
  relax_log : List (Nat × Nat × Nat × Bool)

/-- One neighbor inspection of the Dijkstra relaxation loop
(dijkstra.py lines 425-491): visited neighbors are skipped before
examination; otherwise `dist[u] + w < dist[v]` decides whether
`dist[v]` and `parent[v]` are updated and `(dist[v], v)` pushed. -/
def dijkRelax (u : Nat) (s : DijkState) (vw : Nat × Nat) : DijkState :=
  if vw.1 ∈ s.visited then s
  else
    match s.distances u with
    | none => { s with relax_log := s.relax_log ++ [(u, vw.1, vw.2, false)] }
    | some du =>
      if optLT (some (du + vw.2)) (s.distances vw.1) then
        { s with
            distances := fun x =>
              if x = vw.1 then some (du + vw.2) else s.distances x
            parent := fun x => if x = vw.1 then some u else s.parent x
            pq := s.pq ++ [(du + vw.2, vw.1)]
            relax_log := s.relax_log ++ [(u, vw.1, vw.2, true)] }
      else { s with relax_log := s.relax_log ++ [(u, vw.1, vw.2, false)] }

/-- One iteration of the Dijkstra while-loop (dijkstra.py lines
349-514): pop the least `(distance, vertex)` pair, skip it when the
vertex is already finalized, otherwise finalize it and examine its
incident edges. -/
def dijkStep (adj : Nat → List (Nat × Nat)) (s : DijkState) : DijkState :=
  match popMin s.pq with
  | none => s
  | some ((_, u), rest) =>
    let s1 := { s with pq := rest }
    if u ∈ s1.visited then s1
    else
      let s2 := { s1 with
          visited := u :: s1.visited
          traversal_order := s1.traversal_order ++ [u] }
      (adj u).foldl (dijkRelax u) s2

/-- Fuel-indexed Dijkstra while-loop. -/
def dijkLoop (adj : Nat → List (Nat × Nat)) : Nat → DijkState → DijkState
  | 0, s => s
  | fuel + 1, s =>
    match s.pq with
    | [] => s
    | _ :: _ => dijkLoop adj fuel (dijkStep adj s)

/-- Initial Dijkstra state (dijkstra.py lines 180-181 and 344-345):
all distances infinite except the source at 0, and the priority queue
holding `(0, source)`. -/
def dijkInit (start : Nat) : DijkState :=
  { pq := [(0, start)]
    visited := []
    traversal_order := []
    distances := fun x => if x = start then some 0 else none
    parent := fun _ => none
    relax_log := [] }

/-- The full Dijkstra kernel; `2 * E.length + 2` iterations always
suffice because at most one pair per examined edge occurrence is ever
pushed. -/
def dijkRun (E : List (Nat × Nat)) (w : Nat × Nat → Nat) (start : Nat) :
    DijkState :=
  dijkLoop (adjW E w) (2 * E.length + 2) (dijkInit start)

/-- The edge weights of the second Dijkstra example
(dijkstra.py lines 845-853). -/
def exWeights : Nat × Nat → Nat
  | (0, 1) => 4
  | (0, 2) => 2
  | (1, 3) => 5
  | (1, 4) => 3
  | (2, 5) => 6
  | (3, 6) => 4
  | (4, 6) => 2
  | _ => 0

/-- C2: on the example graph with weights (0,1):4, (0,2):2, (1,3):5,
(1,4):3, (2,5):6, (3,6):4, (4,6):2, Dijkstra from source 0 produces
the distances 0,4,2,9,7,8,9 for vertices 0..6. -/
theorem dijkstra_example_correct :
    distList (dijkRun exEdges exWeights 0).distances exVerts =
      [some 0, some 4, some 2, some 9, some 7, some 8, some 9] := by
  decide

/- ============================================================
Recursive DFS kernel (dfs.py, dfs_animation, lines 177-303)
============================================================ -/

/-- Unvisited-neighbor scan of the recursive DFS (dfs.py lines
283-288): one pass over the edge list, appending the opposite endpoint
of each incident edge whose other end is not yet visited. -/
def dfsNbrsRec (E : List (Nat × Nat)) (visited : List Nat) (node : Nat) :
    List Nat :=
  E.foldl (fun acc uv =>
    if uv.1 = node ∧ uv.2 ∉ visited then acc ++ [uv.2]
    else if uv.2 = node ∧ uv.1 ∉ visited then acc ++ [uv.1]
    else acc) []

/-- Neighbor ordering of the recursive DFS (dfs.py lines 290-295):
sorted ascending, except that node 1 explores 4 before 3 when both are
unvisited neighbors. -/
def dfsNbrOrder (E : List (Nat × Nat)) (visited : List Nat) (node : Nat) :
    List Nat :=
  let nbrs := dfsNbrsRec E visited node
  if node = 1 ∧ 3 ∈ nbrs ∧ 4 ∈ nbrs then
    [4, 3] ++ nbrs.filter (fun n => n ∉ ([3, 4] : List Nat))
  else sortNat nbrs

/-- State of the recursive DFS: visited set, visitation order and
spanning-tree edges recorded as (parent, child). -/
structure DfsRecState where
  visited : List Nat
  traversal_order : List Nat
  tree_edges : List (Nat × Nat)

/-- The recursive DFS kernel (dfs.py `dfs_animation`), fuel-indexed:
return immediately on a visited node, otherwise visit it, compute the
ordered unvisited neighbors, and recurse on each neighbor that is
still unvisited when its turn comes (the double-check of line 299). -/
def dfsRec (E : List (Nat × Nat)) : Nat → Nat → DfsRecState → DfsRecState
  | 0, _, s => s
  | fuel + 1, node, s =>
    if node ∈ s.visited then s
    else
      let s1 := { s with
          visited := node :: s.visited
          traversal_order := s.traversal_order ++ [node] }
      (dfsNbrOrder E s1.visited node).foldl
        (fun t nbr =>
          if nbr ∈ t.visited then t
          else dfsRec E fuel nbr
            { t with tree_edges := t.tree_edges ++ [(node, nbr)] })
        s1

/-- The full recursive DFS from a start vertex; a fuel of
`V.length + 1` suffices since every recursive call visits a new vertex. -/
def dfsRecRun (V : List Nat) (E : List (Nat × Nat)) (start : Nat) :
    DfsRecState :=
  dfsRec E (V.length + 1) start
    { visited := [], traversal_order := [], tree_edges := [] }

/- ============================================================
Iterative DFS kernel (dfs.py, DFSVisualization.construct, lines 710-831)
============================================================ -/

/-- State of the iterative DFS.  The stack top is at the head.
`push_log` records every append to the explicit stack chronologically
and `skip_log` every vertex popped while already visited. -/
structure DfsIterState where
  stack : List (Nat × Option Nat)
  in_stack : List Nat
  visited : List Nat
  traversal_order : List Nat
  tree_edges : List (Nat × Nat)
  push_log : List Nat
  skip_log : List Nat

/-- One iteration of the iterative-DFS while-loop (dfs.py lines
725-831): pop the top, discard it from the in-stack set, skip it when
already visited; otherwise visit it and push its neighbors in reversed
sorted order.  The push guard of line 792 tests `visited` and
`in_stack` as they stood before the batch: the in-stack set is only
extended after the batch is collected (lines 798-801), which is why a
single batch can push the same vertex twice when the adjacency list
holds a duplicate. -/
def dfsIterStep (adj : Nat → List Nat) (s : DfsIterState) : DfsIterState :=
  match s.stack with
  | [] => s
  | (node, _) :: rest =>
    let s1 := { s with
        stack := rest
        in_stack := s.in_stack.filter (· ≠ node) }
    if node ∈ s1.visited then { s1 with skip_log := s1.skip_log ++ [node] }
    else
      let s2 := { s1 with
          visited := node :: s1.visited
          traversal_order := s1.traversal_order ++ [node] }
      let pushes := (adj node).reverse.filter
        (fun nbr => nbr ∉ s2.visited ∧ nbr ∉ s2.in_stack)
      { s2 with
          stack := (pushes.map (fun nbr => (nbr, some node))).reverse ++ s2.stack
          in_stack := pushes ++ s2.in_stack
          tree_edges := s2.tree_edges ++
            pushes.map (fun nbr => (min node nbr, max node nbr))
          push_log := s2.push_log ++ pushes }

/-- Fuel-indexed iterative-DFS while-loop. -/
def dfsIterLoop (adj : Nat → List Nat) : Nat → DfsIterState → DfsIterState
  | 0, s => s
  | fuel + 1, s =>
    match s.stack with
    | [] => s
    | _ :: _ => dfsIterLoop adj fuel (dfsIterStep adj s)

/-- Initial iterative-DFS state (dfs.py lines 718-723): the start
vertex is on the stack and in the in-stack set. -/
def dfsIterInit (start : Nat) : DfsIterState :=
  { stack := [(start, none)]
    in_stack := [start]
    visited := []
    traversal_order := []
    tree_edges := []
    push_log := [start]
    skip_log := [] }

/-- The full iterative DFS kernel; `V.length + 2 * E.length + 2`
iterations always suffice because at most one stack entry per adjacency
occurrence is ever pushed. -/
def dfsIterRun (V : List Nat) (E : List (Nat × Nat)) (start : Nat) :
    DfsIterState :=
  dfsIterLoop (adjOf E) (V.length + 2 * E.length + 2) (dfsIterInit start)

/-- C10: on the shared example graph from source 0, the recursive DFS
(with the node-1 ordering exception) visits [0,1,4,6,3,2,5] while the
iterative DFS (pushing sorted neighbors in reverse) visits
[0,1,3,6,4,2,5]; the two orders differ. -/
theorem dfs_variants_orders_differ :
    (dfsRecRun exVerts exEdges 0).traversal_order = [0, 1, 4, 6, 3, 2, 5] ∧
    (dfsIterRun exVerts exEdges 0).traversal_order = [0, 1, 3, 6, 4, 2, 5] ∧
    (dfsRecRun exVerts exEdges 0).traversal_order ≠
      (dfsIterRun exVerts exEdges 0).traversal_order := by
  decide

/-- A two-vertex graph whose edge list names the same undirected edge
in both orientations, so that vertex 1 occurs twice in the adjacency
list of vertex 0. -/
def dupEdges : List (Nat × Nat) := [(0, 1), (1, 0)]

/-- C6: in the iterative DFS a vertex can be pushed more than once
before being popped: on the graph with edge list [(0,1),(1,0)] from
source 0, one batch pushes vertex 1 twice (the stack then holds two
copies), the push log records vertex 1 twice, and the duplicate is
resolved at pop time by the already-visited check (vertex 1 enters the
skip log), leaving a traversal order in which vertex 1 appears once. -/
theorem dfs_iter_duplicate_push :
    (dfsIterStep (adjOf dupEdges) (dfsIterInit 0)).stack.map Prod.fst =
      [1, 1] ∧
    (dfsIterRun [0, 1] dupEdges 0).push_log.count 1 = 2 ∧
    (dfsIterRun [0, 1] dupEdges 0).skip_log = [1] ∧
    (dfsIterRun [0, 1] dupEdges 0).traversal_order = [0, 1] ∧
    (dfsIterRun [0, 1] dupEdges 0).stack = [] := by
  decide

/-- C9: in the recursive DFS kernel, the unvisited neighbors are
explored in sorted ascending order (as a permutation of the scanned
unvisited neighbors) whenever the node-1 special case does not fire;
at vertex 1 with 3 and 4 both unvisited neighbors the hardcoded order
4-before-3 is used; and in the scripted run on the example graph the
spanning tree consequently contains the tree edge (1,4) while vertex 4
is not reached from vertex 6. -/
theorem dfs_rec_neighbor_order :
    (∀ (E : List (Nat × Nat)) (visited : List Nat) (node : Nat),
      ¬(node = 1 ∧ 3 ∈ dfsNbrsRec E visited node ∧
          4 ∈ dfsNbrsRec E visited node) →
        List.Sorted (· ≤ ·) (dfsNbrOrder E visited node) ∧
        List.Perm (dfsNbrOrder E visited node) (dfsNbrsRec E visited node)) ∧
    (∀ (E : List (Nat × Nat)) (visited : List Nat),
      3 ∈ dfsNbrsRec E visited 1 → 4 ∈ dfsNbrsRec E visited 1 →
        dfsNbrOrder E visited 1 =
          4 :: 3 ::
            (dfsNbrsRec E visited 1).filter (fun n => n ∉ ([3, 4] : List Nat))) ∧
    (1, 4) ∈ (dfsRecRun exVerts exEdges 0).tree_edges ∧
    (6, 4) ∉ (dfsRecRun exVerts exEdges 0).tree_edges := by
  refine ⟨?_, ?_, by decide, by decide⟩
  · intro E visited node h
    rw [dfsNbrOrder, if_neg h]
    exact ⟨List.sorted_insertionSort _ _, List.perm_insertionSort _ _⟩
  · intro E visited h3 h4
    rw [dfsNbrOrder, if_pos ⟨rfl, h3, h4⟩]
    rfl

/-- Witness for `dfs_rec_neighbor_order`: the neighbor order of vertex
0 on the example graph with nothing visited is sorted, and vertex 1
with vertex 0 visited explores 4 before 3. -/
theorem dfs_rec_neighbor_order_witness :
    List.Sorted (· ≤ ·) (dfsNbrOrder exEdges [] 0) ∧
    dfsNbrOrder exEdges [0] 1 =
      4 :: 3 ::
        (dfsNbrsRec exEdges [0] 1).filter (fun n => n ∉ ([3, 4] : List Nat)) :=
  ⟨(dfs_rec_neighbor_order.1 exEdges [] 0 (by decide)).1,
   dfs_rec_neighbor_order.2.1 exEdges [0] (by decide) (by decide)⟩

/- ============================================================
Hierholzer Eulerian-trail kernel (eulerian_path.py, EulerianPaths,
lines 520-695)
============================================================ -/

/-- State of the Hierholzer walk of eulerian_path.py: a vertex stack
(top at head, modelling Python list append/pop at the end), the
circuit accumulated in reverse, the current vertex, the remaining-edge
set and the loop-exit flag (the `break` of line 623). -/
structure EulerState where
  stack_vertices : List Nat
  circuit : List Nat
  current_vertex : Nat
  remaining_edges : List (Nat × Nat)
  finished : Bool

/-- One iteration of the Hierholzer while-loop (eulerian_path.py lines
597-691).  When the current vertex has no remaining incident edge it
is appended to the circuit and the stack is popped (or the loop ends
on an empty stack); otherwise the current vertex is pushed, the chosen
incident edge removed, and the walk moves to its other endpoint.  The
source iterates over `list(remaining_edges)`, a Python set whose
iteration order is implementation-defined; the model takes the first
incident edge in edge-list order, a choice the verified trail property
does not depend on. -/
def eulStep (s : EulerState) : EulerState :=
  match s.remaining_edges.find?
      (fun e => e.1 == s.current_vertex || e.2 == s.current_vertex) with
  | none =>
    let s1 := { s with circuit := s.circuit ++ [s.current_vertex] }
    match s1.stack_vertices with
    | [] => { s1 with finished := true }
    | top :: rest => { s1 with stack_vertices := rest, current_vertex := top }
  | some e =>
    let nxt := if e.1 = s.current_vertex then e.2 else e.1
    { s with
        stack_vertices := s.current_vertex :: s.stack_vertices
        remaining_edges := s.remaining_edges.erase e
        current_vertex := nxt }

/-- Fuel-indexed Hierholzer while-loop; the flag models the `break`. -/
def eulLoop : Nat → EulerState → EulerState
  | 0, s => s
  | fuel + 1, s => if s.finished then s else eulLoop fuel (eulStep s)

/-- The 9-vertex Hierholzer example vertex list
(eulerian_path.py line 520). -/
def eulVerts : List Nat := [1, 2, 3, 4, 5, 6, 7, 8, 9]

/-- The 11-edge Hierholzer example edge list
(eulerian_path.py lines 521-533). -/
def eulEdges : List (Nat × Nat) :=
  [(1, 2), (1, 6), (1, 8), (1, 9), (2, 3), (2, 4), (2, 8), (3, 4), (5, 8),
   (6, 9), (7, 8)]

/-- The scripted Hierholzer run (eulerian_path.py lines 570-597):
start at odd-degree vertex 5 with all 11 edges remaining; 60 rounds of
fuel exceed the 23 iterations the walk needs. -/
def eulRun : EulerState :=
  eulLoop 60
    { stack_vertices := []
      circuit := []
      current_vertex := 5
      remaining_edges := eulEdges
      finished := false }

/-- Normalize an undirected edge as (smaller, larger), matching the
`(min(u, v), max(u, v))` convention of the scripts. -/
def normEdge (p : Nat × Nat) : Nat × Nat := (min p.1 p.2, max p.1 p.2)

/-- C3: the 9-vertex Hierholzer example has 11 edges whose odd-degree
vertices are exactly 5 and 7; the edge-consuming loop started at
vertex 5 terminates with no edge remaining, and the reversed circuit
is an Eulerian trail of length 12 starting at 5: its consecutive pairs
are edges of the graph and, normalized, are a permutation of (use each
member of) the 11-edge list. -/
theorem euler_example_trail :
    eulEdges.length = 11 ∧
    eulVerts.filter (fun v => (rawNbrs eulEdges v).length % 2 = 1) = [5, 7] ∧
    eulRun.finished = true ∧
    eulRun.remaining_edges = [] ∧
    eulRun.circuit.reverse.length = 12 ∧
    eulRun.circuit.reverse.head? = some 5 ∧
    List.Perm
      ((eulRun.circuit.reverse.zip eulRun.circuit.reverse.tail).map normEdge)
      eulEdges ∧
    ∀ p ∈ eulRun.circuit.reverse.zip eulRun.circuit.reverse.tail,
      isEdge eulEdges p.1 p.2 := by
  decide

/- ============================================================
Hamiltonian backtracking run (hamiltonian_path.py, HamiltonConcepts,
lines 430-446 and 542-935)
============================================================ -/

/-- The 5-vertex backtracking demo vertex list
(hamiltonian_path.py line 430). -/
def hamVerts : List Nat := [1, 2, 3, 4, 5]

/-- The backtracking demo edge list (hamiltonian_path.py lines
431-439); it names the undirected edge between 4 and 5 in both
orientations. -/
def hamEdges : List (Nat × Nat) :=
  [(1, 2), (2, 3), (3, 4), (4, 5), (3, 5), (5, 4), (4, 1)]

/-- `get_edge_key` of hamiltonian_path.py lines 585-594: the oriented
key under which the graph stores the edge, falling back to the
canonical (min, max) form. -/
def getEdgeKey (E : List (Nat × Nat)) (u v : Nat) : Nat × Nat :=
  if E.contains (u, v) then (u, v)
  else if E.contains (v, u) then (v, u)
  else (min u v, max u v)

/-- State of the scripted Hamiltonian backtracking run: the explicit
path, the visited set (in insertion order) and the path-edge keys. -/
structure HamState where
  path : List Nat
  visited_set : List Nat
  current_path_edges : List (Nat × Nat)

/-- Path extension step of the script (e.g. hamiltonian_path.py lines
660-664): append the next vertex to path and visited set and record
the connecting edge key. -/
def hamExtend (E : List (Nat × Nat)) (prev next_v : Nat) (s : HamState) :
    HamState :=
  { path := s.path ++ [next_v]
    visited_set := s.visited_set ++ [next_v]
    current_path_edges := s.current_path_edges ++ [getEdgeKey E prev next_v] }

/-- Backtracking step of the script (hamiltonian_path.py lines
776-818): undo the last extension, removing the vertex from path and
visited set and dropping the last path edge. -/
def hamBacktrack (s : HamState) : HamState :=
  { path := s.path.dropLast
    visited_set := s.visited_set.dropLast
    current_path_edges := s.current_path_edges.dropLast }

/-- Success check of the script (hamiltonian_path.py lines 906-924):
fail unless the visited count and the path length both equal the
vertex count, then fail unless the graph has an edge from the last
path vertex back to the start; otherwise report success. -/
def hamCheckSuccess (V : List Nat) (E : List (Nat × Nat)) (s : HamState)
    (lastv startv : Nat) : Bool :=
  if ¬(s.visited_set.length = V.length) ∨ ¬(s.path.length = V.length) then
    false
  else if ¬(E.contains (getEdgeKey E lastv startv) = true) then false
  else true

/-- The scripted 5-vertex backtracking run (hamiltonian_path.py lines
542-904): start at 1, extend along 2, 3, 4, 5; at 5 the cycle-closing
check fails, so the script backtracks twice and extends along 3 to 5
and 5 to 4. -/
def hamScript : HamState :=
  let s0 : HamState :=
    { path := [1], visited_set := [1], current_path_edges := [] }
  let s4 := hamExtend hamEdges 4 5 (hamExtend hamEdges 3 4
    (hamExtend hamEdges 2 3 (hamExtend hamEdges 1 2 s0)))
  if hamEdges.contains (getEdgeKey hamEdges 5 1) then s4
  else
    hamExtend hamEdges 5 4 (hamExtend hamEdges 3 5
      (hamBacktrack (hamBacktrack s4)))

/-- The oriented key returned by `get_edge_key` is stored in the edge
list exactly when one orientation of the edge is: the fallback
canonical key coincides with one of the two orientations. -/
theorem getEdgeKey_mem_iff (E : List (Nat × Nat)) (u v : Nat) :
    E.contains (getEdgeKey E u v) = true ↔ isEdge E u v := by
  have hc : ∀ p : Nat × Nat, E.contains p = true ↔ p ∈ E :=
    fun p => ⟨List.mem_of_elem_eq_true, List.elem_eq_true_of_mem⟩
  unfold getEdgeKey
  by_cases hu : E.contains (u, v) = true
  · rw [if_pos hu]
    exact ⟨fun _ => Or.inl ((hc _).mp hu), fun _ => hu⟩
  · rw [if_neg hu]
    by_cases hv : E.contains (v, u) = true
    · rw [if_pos hv]
      exact ⟨fun _ => Or.inr ((hc _).mp hv), fun _ => hv⟩
    · rw [if_neg hv]
      constructor
      · intro hmm
        rcases Nat.le_total u v with hle | hle
        · rw [min_eq_left hle, max_eq_right hle] at hmm
          exact absurd hmm hu
        · rw [min_eq_right hle, max_eq_left hle] at hmm
          exact absurd hmm hv
      · intro hedge
        rcases hedge with hm | hm
        · exact absurd ((hc _).mpr hm) hu
        · exact absurd ((hc _).mpr hm) hv

/-- C8: the success check of the Hamiltonian script is true exactly
when the visited count and path length equal the vertex count and the
graph has an edge from the last path vertex back to the start; the
scripted 5-vertex run constructs the path 1,2,3,5,4 (each vertex
exactly once), its success check with last vertex 4 and start 1
passes, there is no edge from 5 back to 1 (the dead end that forced
backtracking), and every consecutive pair of the reported cycle
1-2-3-5-4-1 is an edge of the graph. -/
theorem hamiltonian_success_condition :
    (∀ (V : List Nat) (E : List (Nat × Nat)) (s : HamState)
        (lastv startv : Nat),
      hamCheckSuccess V E s lastv startv = true ↔
        (s.visited_set.length = V.length ∧ s.path.length = V.length ∧
          isEdge E lastv startv)) ∧
    hamScript.path = [1, 2, 3, 5, 4] ∧
    hamScript.path.Nodup ∧
    List.Perm hamScript.path hamVerts ∧
    hamCheckSuccess hamVerts hamEdges hamScript 4 1 = true ∧
    ¬isEdge hamEdges 5 1 ∧
    ∀ p ∈ (hamScript.path.zip hamScript.path.tail) ++ [(4, 1)],
      isEdge hamEdges p.1 p.2 := by
  refine ⟨?_, by decide, by decide, by decide, by decide, by decide, by decide⟩
  intro V E s lastv startv
  unfold hamCheckSuccess
  by_cases h1 : ¬(s.visited_set.length = V.length) ∨
      ¬(s.path.length = V.length)
  · rw [if_pos h1]
    constructor
    · intro h; exact absurd h (by simp)
    · rintro ⟨ha, hb, _⟩
      rcases h1 with h1 | h1
      · exact absurd ha h1
      · exact absurd hb h1
  · rw [if_neg h1]
    push_neg at h1
    by_cases h2 : ¬(E.contains (getEdgeKey E lastv startv) = true)
    · rw [if_pos h2]
      constructor
      · intro h; exact absurd h (by simp)
      · rintro ⟨_, _, h3⟩
        exact absurd ((getEdgeKey_mem_iff E lastv startv).mpr h3) h2
    · rw [if_neg h2]
      push_neg at h2
      exact ⟨fun _ => ⟨h1.1, h1.2, (getEdgeKey_mem_iff E lastv startv).mp h2⟩,
        fun _ => rfl⟩

/-- Witness for `hamiltonian_success_condition`: the success
characterization instantiated on the finished scripted run. -/
theorem hamiltonian_success_condition_witness :
    hamCheckSuccess hamVerts hamEdges hamScript 4 1 = true :=
  (hamiltonian_success_condition.1 hamVerts hamEdges hamScript 4 1).mpr
    ⟨by decide, by decide, by decide⟩

/- ============================================================
Dijkstra invariants (claim C4)
============================================================ -/

/-- A relaxation inspection never changes the visited set. -/
theorem dijkRelax_visited (u : Nat) (s : DijkState) (vw : Nat × Nat) :
    (dijkRelax u s vw).visited = s.visited := by
  unfold dijkRelax
  split
  · rfl
  · split
    · rfl
    · split
      · rfl
      · rfl

/-- A relaxation inspection never changes the traversal order. -/
theorem dijkRelax_order (u : Nat) (s : DijkState) (vw : Nat × Nat) :
    (dijkRelax u s vw).traversal_order = s.traversal_order := by
  unfold dijkRelax
  split
  · rfl
  · split
    · rfl
    · split
      · rfl
      · rfl

/-- A relaxation inspection never changes the recorded distance of an
already-finalized vertex: visited neighbors are skipped before any
update. -/
theorem dijkRelax_dist_visited (u : Nat) (s : DijkState) (vw : Nat × Nat)
    (x : Nat) (hx : x ∈ s.visited) :
    (dijkRelax u s vw).distances x = s.distances x := by
  unfold dijkRelax
  split
  · rfl
  · rename_i hnv
    split
    · rfl
    · split
      · have hxv : x ≠ vw.1 := fun he => hnv (he ▸ hx)
        simp only [if_neg hxv]
      · rfl

/-- Folding relaxation over an adjacency list keeps the visited set,
the traversal order, and the distances of finalized vertices. -/
theorem dijkFold_keeps (u : Nat) (l : List (Nat × Nat)) :
    ∀ s : DijkState,
      (l.foldl (dijkRelax u) s).visited = s.visited ∧
      (l.foldl (dijkRelax u) s).traversal_order = s.traversal_order ∧
      ∀ x ∈ s.visited, (l.foldl (dijkRelax u) s).distances x =
        s.distances x := by
  induction l with
  | nil => intro s; exact ⟨rfl, rfl, fun _ _ => rfl⟩
  | cons vw rest ih =>
    intro s
    have hv := dijkRelax_visited u s vw
    have ht := dijkRelax_order u s vw
    obtain ⟨ihv, iht, ihd⟩ := ih (dijkRelax u s vw)
    refine ⟨by rw [List.foldl_cons, ihv, hv],
      by rw [List.foldl_cons, iht, ht], ?_⟩
    intro x hx
    rw [List.foldl_cons, ihd x (hv ▸ hx), dijkRelax_dist_visited u s vw x hx]

/-- Unfolding equation of a Dijkstra step on an empty queue. -/
theorem dijkStep_eq_none (adj : Nat → List (Nat × Nat)) (s : DijkState)
    (hp : popMin s.pq = none) : dijkStep adj s = s := by
  unfold dijkStep; rw [hp]

/-- Unfolding equation of a Dijkstra step popping a stale pair: only
the pair is removed. -/
theorem dijkStep_eq_skip (adj : Nat → List (Nat × Nat)) (s : DijkState)
    (d u : Nat) (rest : List (Nat × Nat))
    (hp : popMin s.pq = some ((d, u), rest)) (hu : u ∈ s.visited) :
    dijkStep adj s = { s with pq := rest } := by
  unfold dijkStep; rw [hp]; simp only [if_pos hu]

/-- Unfolding equation of a Dijkstra step popping an unfinalized
vertex: it is finalized and its incident edges examined. -/
theorem dijkStep_eq_visit (adj : Nat → List (Nat × Nat)) (s : DijkState)
    (d u : Nat) (rest : List (Nat × Nat))
    (hp : popMin s.pq = some ((d, u), rest)) (hu : u ∉ s.visited) :
    dijkStep adj s = (adj u).foldl (dijkRelax u)
      { s with
          pq := rest
          visited := u :: s.visited
          traversal_order := s.traversal_order ++ [u] } := by
  unfold dijkStep; rw [hp]; simp only [if_neg hu]

/-- A Dijkstra step keeps every already-finalized vertex finalized and
keeps its recorded distance. -/
theorem dijkStep_keeps (adj : Nat → List (Nat × Nat)) (s : DijkState)
    (x : Nat) (hx : x ∈ s.visited) :
    x ∈ (dijkStep adj s).visited ∧
    (dijkStep adj s).distances x = s.distances x := by
  cases hp : popMin s.pq with
  | none => rw [dijkStep_eq_none adj s hp]; exact ⟨hx, rfl⟩
  | some pr =>
    obtain ⟨⟨d, u⟩, rest⟩ := pr
    by_cases hu : u ∈ s.visited
    · rw [dijkStep_eq_skip adj s d u rest hp hu]
      exact ⟨hx, rfl⟩
    · rw [dijkStep_eq_visit adj s d u rest hp hu]
      obtain ⟨hv, _, hd⟩ := dijkFold_keeps u (adj u)
        { s with
            pq := rest
            visited := u :: s.visited
            traversal_order := s.traversal_order ++ [u] }
      constructor
      · rw [hv]; exact List.mem_cons_of_mem u hx
      · exact hd x (List.mem_cons_of_mem u hx)

/-- Distances of finalized vertices are stable over any remainder of
the Dijkstra run. -/
theorem dijkLoop_dist_stable (adj : Nat → List (Nat × Nat)) (fuel : Nat) :
    ∀ (s : DijkState) (u : Nat), u ∈ s.visited →
      (dijkLoop adj fuel s).distances u = s.distances u := by
  induction fuel with
  | zero => intro s u _; rfl
  | succ n ih =>
    intro s u hu
    show (match s.pq with
      | [] => s
      | _ :: _ => dijkLoop adj n (dijkStep adj s)).distances u = s.distances u
    cases hq : s.pq with
    | nil => rfl
    | cons p rest =>
      obtain ⟨hv, hd⟩ := dijkStep_keeps adj s u hu
      rw [ih (dijkStep adj s) u hv, hd]

/-- C4: in the Dijkstra kernel, (i) when an edge (u,v,w) is examined
with v not yet finalized, the distance and parent of v are updated and
the pair (dist u + w, v) is pushed exactly when dist u + w < dist v,
and the distances, parents and queue are untouched otherwise; (ii) a
vertex is finalized (entered into the visited set and appended to the
traversal order) the first time it is popped from the priority queue,
while popping an already-finalized vertex only removes the stale pair;
(iii) once a vertex is finalized, its recorded distance is never
changed by any later step of the run.  Weights are natural numbers, so
every weighted graph in scope is non-negatively weighted. -/
theorem dijkstra_relax_finalize_stable :
    (∀ (u : Nat) (s : DijkState) (v w : Nat), v ∉ s.visited →
      (optLT ((s.distances u).map (· + w)) (s.distances v) = true →
        ∃ nd, (s.distances u).map (· + w) = some nd ∧
          (dijkRelax u s (v, w)).distances v = some nd ∧
          (dijkRelax u s (v, w)).parent v = some u ∧
          (dijkRelax u s (v, w)).pq = s.pq ++ [(nd, v)]) ∧
      (optLT ((s.distances u).map (· + w)) (s.distances v) = false →
        (dijkRelax u s (v, w)).distances v = s.distances v ∧
        (dijkRelax u s (v, w)).parent v = s.parent v ∧
        (dijkRelax u s (v, w)).pq = s.pq)) ∧
    (∀ (adj : Nat → List (Nat × Nat)) (s : DijkState) (d u : Nat)
        (rest : List (Nat × Nat)), popMin s.pq = some ((d, u), rest) →
      (u ∉ s.visited →
        u ∈ (dijkStep adj s).visited ∧
        (dijkStep adj s).traversal_order = s.traversal_order ++ [u]) ∧
      (u ∈ s.visited → dijkStep adj s = { s with pq := rest })) ∧
    (∀ (adj : Nat → List (Nat × Nat)) (fuel : Nat) (s : DijkState)
        (u : Nat), u ∈ s.visited →
      (dijkLoop adj fuel s).distances u = s.distances u) := by
  refine ⟨?_, ?_, fun adj fuel s u hu => dijkLoop_dist_stable adj fuel s u hu⟩
  · intro u s v w hv
    unfold dijkRelax
    simp only [if_neg hv]
    cases hd : s.distances u with
    | none =>
      refine ⟨fun h => absurd h (by simp [optLT]), fun _ => by simp⟩
    | some du =>
      simp only [Option.map_some']
      by_cases hlt : optLT (some (du + w)) (s.distances v) = true
      · simp only [if_pos hlt]
        refine ⟨fun _ => ⟨du + w, rfl, by simp, by simp, rfl⟩, ?_⟩
        intro hf
        rw [hlt] at hf
        exact absurd hf (by simp)
      · simp only [if_neg hlt]
        exact ⟨fun h => absurd h hlt, fun _ => by simp⟩
  · intro adj s d u rest hpop
    constructor
    · intro hu
      rw [dijkStep_eq_visit adj s d u rest hpop hu]
      obtain ⟨hv, ht, _⟩ := dijkFold_keeps u (adj u)
        { s with
            pq := rest
            visited := u :: s.visited
            traversal_order := s.traversal_order ++ [u] }
      exact ⟨by rw [hv]; exact List.mem_cons_self u s.visited, by rw [ht]⟩
    · intro hu
      exact dijkStep_eq_skip adj s d u rest hpop hu

/-- Witness for `dijkstra_relax_finalize_stable`, instantiated on the
example weighted graph: the first relaxation from the source updates
vertex 1 to distance 4; the second loop step pops the pair (2, 2) and
finalizes vertex 2; and the source distance is stable over the rest of
the run. -/
theorem dijkstra_relax_finalize_stable_witness :
    (∃ nd, ((dijkInit 0).distances 0).map (· + 4) = some nd ∧
      (dijkRelax 0 (dijkInit 0) (1, 4)).distances 1 = some nd ∧
      (dijkRelax 0 (dijkInit 0) (1, 4)).parent 1 = some 0 ∧
      (dijkRelax 0 (dijkInit 0) (1, 4)).pq = (dijkInit 0).pq ++ [(nd, 1)]) ∧
    (2 ∈ (dijkStep (adjW exEdges exWeights)
        (dijkStep (adjW exEdges exWeights) (dijkInit 0))).visited ∧
      (dijkStep (adjW exEdges exWeights)
        (dijkStep (adjW exEdges exWeights) (dijkInit 0))).traversal_order =
        (dijkStep (adjW exEdges exWeights) (dijkInit 0)).traversal_order ++
          [2]) ∧
    (dijkLoop (adjW exEdges exWeights) 5
        (dijkStep (adjW exEdges exWeights) (dijkInit 0))).distances 0 =
      (dijkStep (adjW exEdges exWeights) (dijkInit 0)).distances 0 :=
  ⟨(dijkstra_relax_finalize_stable.1 0 (dijkInit 0) 1 4 (by decide)).1
      (by decide),
   (dijkstra_relax_finalize_stable.2.1 (adjW exEdges exWeights)
      (dijkStep (adjW exEdges exWeights) (dijkInit 0)) 2 2 [(4, 1)]
      (by decide)).1 (by decide),
   dijkstra_relax_finalize_stable.2.2 (adjW exEdges exWeights) 5
      (dijkStep (adjW exEdges exWeights) (dijkInit 0)) 0 (by decide)⟩

/- ============================================================
Reachability in the undirected graph of an edge list
============================================================ -/

/-- A walk of exactly `n` edges from `s` ends at `v`. -/
def ReachN (E : List (Nat × Nat)) (s : Nat) : Nat → Nat → Prop
  | 0, v => v = s
  | n + 1, v => ∃ u, ReachN E s n u ∧ isEdge E u v

/-- `v` is reachable from `s`: some walk of some length reaches it. -/
def Reach (E : List (Nat × Nat)) (s v : Nat) : Prop := ∃ n, ReachN E s n v

/-- Membership in the raw neighbor list is exactly edge incidence. -/
theorem mem_rawNbrs {E : List (Nat × Nat)} {u v : Nat} :
    v ∈ rawNbrs E u ↔ isEdge E u v := by
  unfold rawNbrs isEdge
  rw [List.mem_flatMap]
  constructor
  · rintro ⟨uv, huv, hmem⟩
    rcases List.mem_append.mp hmem with h | h
    · by_cases h1 : uv.1 = u
      · rw [if_pos h1] at h
        rcases List.mem_singleton.mp h with h2
        left
        have : uv = (u, v) := by
          cases uv; simp_all
        exact this ▸ huv
      · rw [if_neg h1] at h
        exact absurd h (List.not_mem_nil v)
    · by_cases h2 : uv.2 = u
      · rw [if_pos h2] at h
        rcases List.mem_singleton.mp h with h1
        right
        have : uv = (v, u) := by
          cases uv; simp_all
        exact this ▸ huv
      · rw [if_neg h2] at h
        exact absurd h (List.not_mem_nil v)
  · rintro (h | h)
    · exact ⟨(u, v), h, by simp⟩
    · exact ⟨(v, u), h, by simp⟩

/-- Membership in the sorted adjacency list is exactly edge incidence. -/
theorem mem_adjOf {E : List (Nat × Nat)} {u v : Nat} :
    v ∈ adjOf E u ↔ isEdge E u v := by
  unfold adjOf sortNat
  rw [List.mem_insertionSort]
  exact mem_rawNbrs

/-- Edge incidence keeps both endpoints inside the vertex list,
assuming the edge list is well-formed over it. -/
theorem isEdge_mem_right {V : List Nat} {E : List (Nat × Nat)} {u v : Nat}
    (hE : ∀ p ∈ E, p.1 ∈ V ∧ p.2 ∈ V) (h : isEdge E u v) : v ∈ V := by
  rcases h with h | h
  · exact (hE (u, v) h).2
  · exact (hE (v, u) h).1

/- ============================================================
BFS loop invariant (claims C5 and C7)
============================================================ -/

/-- Invariant of the BFS loop, holding between iterations.  Distances
are set exactly on visited or in-queue vertices, the enqueue log is
duplicate-free and splits into the dequeue log plus the current queue,
every set distance is witnessed by a walk of that length, neighbors of
visited vertices are set within distance one, and the queue is sorted
by distance with all entries within one of each other and above every
visited vertex. -/
structure BfsInv (V : List Nat) (E : List (Nat × Nat)) (start : Nat)
    (s : BfsState) : Prop where
  hq : ∀ v, v ∈ s.queue.map Prod.fst ↔ v ∈ s.in_queue
  hqnd : (s.queue.map Prod.fst).Nodup
  hds : ∀ v, (s.distances v).isSome = true ↔ (v ∈ s.visited ∨ v ∈ s.in_queue)
  hstart : s.distances start = some 0
  hordnd : s.traversal_order.Nodup
  hordv : ∀ v, v ∈ s.traversal_order ↔ v ∈ s.visited
  henq : s.enq_log.Nodup
  henqd : ∀ v, v ∈ s.enq_log ↔ (s.distances v).isSome = true
  henqV : ∀ v ∈ s.enq_log, v ∈ V
  hperm : List.Perm s.enq_log (s.deq_log ++ s.queue.map Prod.fst)
  hwnd : s.dist_writes.Nodup
  hwd : ∀ v, v ∈ s.dist_writes ↔ (s.distances v).isSome = true
  hsound : ∀ v k, s.distances v = some k → ReachN E start k v
  hclosed : ∀ u v du, u ∈ s.visited → isEdge E u v →
    s.distances u = some du → ∃ dv, s.distances v = some dv ∧ dv ≤ du + 1
  hqpair : (s.queue.map Prod.fst).Pairwise
    (fun a b => ∀ x y, s.distances a = some x → s.distances b = some y →
      x ≤ y)
  hqbound : ∀ a b x y, a ∈ s.queue.map Prod.fst → b ∈ s.queue.map Prod.fst →
    s.distances a = some x → s.distances b = some y → y ≤ x + 1
  hvisq : ∀ u q x y, u ∈ s.visited → q ∈ s.queue.map Prod.fst →
    s.distances u = some x → s.distances q = some y → x ≤ y
  hvdeq : ∀ v, v ∈ s.visited → v ∈ s.deq_log

/-- Mid-fold invariant while the sorted neighbors of the freshly
visited `node` (at distance `d`, previous visited set `oldvis`) are
being inspected. -/
structure BfsMid (V : List Nat) (E : List (Nat × Nat))
    (start node d : Nat) (oldvis : List Nat) (t : BfsState) : Prop where
  mq : ∀ v, v ∈ t.queue.map Prod.fst ↔ v ∈ t.in_queue
  mqnd : (t.queue.map Prod.fst).Nodup
  mvis : t.visited = node :: oldvis
  mds : ∀ v, (t.distances v).isSome = true ↔ (v ∈ t.visited ∨ v ∈ t.in_queue)
  mstart : t.distances start = some 0
  mnode : t.distances node = some d
  mord : t.traversal_order.Nodup
  mordv : ∀ v, v ∈ t.traversal_order ↔ v ∈ t.visited
  menq : t.enq_log.Nodup
  menqd : ∀ v, v ∈ t.enq_log ↔ (t.distances v).isSome = true
  menqV : ∀ v ∈ t.enq_log, v ∈ V
  mperm : List.Perm t.enq_log (t.deq_log ++ t.queue.map Prod.fst)
  mwnd : t.dist_writes.Nodup
  mwd : ∀ v, v ∈ t.dist_writes ↔ (t.distances v).isSome = true
  msound : ∀ v k, t.distances v = some k → ReachN E start k v
  mclosed : ∀ u v du, u ∈ oldvis → isEdge E u v →
    t.distances u = some du → ∃ dv, t.distances v = some dv ∧ dv ≤ du + 1
  mqpair : (t.queue.map Prod.fst).Pairwise
    (fun a b => ∀ x y, t.distances a = some x → t.distances b = some y →
      x ≤ y)
  mqdb : ∀ q y, q ∈ t.queue.map Prod.fst → t.distances q = some y →
    d ≤ y ∧ y ≤ d + 1
  mvisd : ∀ u x, u ∈ t.visited → t.distances u = some x → x ≤ d
  mvdeq : ∀ v, v ∈ t.visited → v ∈ t.deq_log

/-- The BFS invariant holds initially. -/
theorem bfsInit_inv (V : List Nat) (E : List (Nat × Nat)) (start : Nat)
    (hstartV : start ∈ V) : BfsInv V E start (bfsInit start) := by
  refine ⟨?_, ?_, ?_, ?_, ?_, ?_, ?_, ?_, ?_, ?_, ?_, ?_, ?_, ?_, ?_, ?_,
    ?_, ?_⟩
  · intro v; simp [bfsInit]
  · simp [bfsInit]
  · intro v
    by_cases h : v = start <;> simp [bfsInit, h]
  · simp [bfsInit]
  · simp [bfsInit]
  · intro v; simp [bfsInit]
  · simp [bfsInit]
  · intro v
    by_cases h : v = start <;> simp [bfsInit, h]
  · intro v hv
    have hveq : v = start := by simpa [bfsInit] using hv
    exact hveq ▸ hstartV
  · simp [bfsInit]
  · simp [bfsInit]
  · intro v
    by_cases h : v = start <;> simp [bfsInit, h]
  · intro v k hk
    simp only [bfsInit] at hk
    by_cases hv : v = start
    · rw [if_pos hv] at hk
      have hk0 : k = 0 := by simpa using hk.symm
      subst hk0
      exact hv
    · rw [if_neg hv] at hk
      exact absurd hk (by simp)
  · intro u v du hu
    simp [bfsInit] at hu
  · simp [bfsInit]
  · intro a b x y ha hb hda hdb
    have ha0 : a = start := by simpa [bfsInit] using ha
    have hb0 : b = start := by simpa [bfsInit] using hb
    subst ha0; subst hb0
    simp [bfsInit] at hda hdb
    omega
  · intro u q x y hu
    simp [bfsInit] at hu
  · intro v hv
    simp [bfsInit] at hv

/-- A neighbor inspection never changes a distance that is already
set: the write is guarded by the distance still being infinity. -/
theorem bfsRelax_stable (node : Nat) (s : BfsState) (nbr v k : Nat)
    (h : s.distances v = some k) :
    (bfsRelax node s nbr).distances v = some k := by
  unfold bfsRelax
  split
  · exact h
  · split
    · rename_i hnone
      by_cases hv : v = nbr
      · subst hv
        rw [h] at hnone
        exact absurd hnone (by simp)
      · simpa [if_neg hv] using h
    · exact h

/-- Folding neighbor inspections never changes a set distance. -/
theorem bfsFold_stable (node : Nat) (l : List Nat) :
    ∀ (s : BfsState) (v k : Nat), s.distances v = some k →
      (l.foldl (bfsRelax node) s).distances v = some k := by
  induction l with
  | nil => intro s v k h; exact h
  | cons nbr rest ih =>
    intro s v k h
    exact ih (bfsRelax node s nbr) v k (bfsRelax_stable node s nbr v k h)

/-- One neighbor inspection preserves the mid-fold invariant, and the
inspected neighbor ends with a set distance of at most d + 1. -/
theorem bfsRelax_mid (V : List Nat) (E : List (Nat × Nat))
    (start node d : Nat) (oldvis : List Nat) (t : BfsState) (nbr : Nat)
    (hedge : isEdge E node nbr) (hnbrV : nbr ∈ V)
    (hm : BfsMid V E start node d oldvis t) :
    BfsMid V E start node d oldvis (bfsRelax node t nbr) ∧
      ∃ dv, (bfsRelax node t nbr).distances nbr = some dv ∧ dv ≤ d + 1 := by
  by_cases hg : nbr ∈ t.visited ∨ nbr ∈ t.in_queue
  · have hrel : bfsRelax node t nbr = t := by
      unfold bfsRelax; rw [if_pos hg]
    rw [hrel]
    refine ⟨hm, ?_⟩
    have hsome : (t.distances nbr).isSome = true := (hm.mds nbr).mpr hg
    obtain ⟨dv, hdv⟩ := Option.isSome_iff_exists.mp hsome
    rcases hg with hvis | hq
    · exact ⟨dv, hdv, le_trans (hm.mvisd nbr dv hvis hdv) (Nat.le_succ d)⟩
    · exact ⟨dv, hdv, (hm.mqdb nbr dv ((hm.mq nbr).mpr hq) hdv).2⟩
  · have hnone : (t.distances nbr).isNone = true := by
      cases hopt : t.distances nbr with
      | none => rfl
      | some k =>
        exact absurd ((hm.mds nbr).mp (by rw [hopt]; rfl)) hg
    have hrel : bfsRelax node t nbr = { t with
        distances := fun x =>
          if x = nbr then (t.distances node).map (· + 1) else t.distances x
        dist_writes := t.dist_writes ++ [nbr]
        queue := t.queue ++ [(nbr, some node)]
        tree_edges := t.tree_edges ++ [(min node nbr, max node nbr)]
        in_queue := nbr :: t.in_queue
        enq_log := t.enq_log ++ [nbr] } := by
      unfold bfsRelax; rw [if_neg hg, if_pos hnone]
    have hnbrvis : nbr ∉ t.visited := fun h => hg (Or.inl h)
    have hnbrq : nbr ∉ t.in_queue := fun h => hg (Or.inr h)
    have hnbrqv : nbr ∉ t.queue.map Prod.fst :=
      fun h => hnbrq ((hm.mq nbr).mp h)
    have hnodenbr : node ≠ nbr := fun h =>
      hnbrvis (h ▸ (hm.mvis ▸ List.mem_cons_self node oldvis))
    have hnbrnone : t.distances nbr = none := by
      cases hopt : t.distances nbr with
      | none => rfl
      | some k => rw [hopt] at hnone; exact absurd hnone (by simp)
    have hnbrenq : nbr ∉ t.enq_log := fun h => by
      have := (hm.menqd nbr).mp h
      rw [hnbrnone] at this
      exact absurd this (by simp)
    have hnbrwr : nbr ∉ t.dist_writes := fun h => by
      have := (hm.mwd nbr).mp h
      rw [hnbrnone] at this
      exact absurd this (by simp)
    have hstartnbr : start ≠ nbr := fun h => by
      rw [← h, hm.mstart] at hnbrnone
      exact absurd hnbrnone (by simp)
    rw [hrel]
    refine ⟨⟨?_, ?_, ?_, ?_, ?_, ?_, ?_, ?_, ?_, ?_, ?_, ?_, ?_, ?_, ?_, ?_,
      ?_, ?_, ?_, ?_⟩, ?_⟩
    · intro v
      simp only [List.map_append, List.map_cons, List.map_nil,
        List.mem_append, List.mem_cons, List.not_mem_nil, or_false]
      rw [hm.mq v]
      tauto
    · simp only [List.map_append, List.map_cons, List.map_nil]
      rw [List.nodup_append]
      exact ⟨hm.mqnd, List.nodup_singleton nbr,
        fun a ha hb => (List.mem_singleton.mp hb ▸ hnbrqv) ha⟩
    · exact hm.mvis
    · intro v
      by_cases hv : v = nbr
      · subst hv
        simp only [if_pos rfl, hm.mnode, Option.map_some']
        constructor
        · intro _
          exact Or.inr (List.mem_cons_self v t.in_queue)
        · intro _; rfl
      · simp only [if_neg hv]
        rw [hm.mds v]
        constructor
        · rintro (h | h)
          · exact Or.inl h
          · exact Or.inr (List.mem_cons_of_mem nbr h)
        · rintro (h | h)
          · exact Or.inl h
          · rcases List.mem_cons.mp h with h1 | h1
            · exact absurd h1 hv
            · exact Or.inr h1
    · simpa [if_neg hstartnbr] using hm.mstart
    · simpa [if_neg (Ne.symm (fun h => hnodenbr h.symm))] using hm.mnode
    · exact hm.mord
    · exact hm.mordv
    · rw [List.nodup_append]
      exact ⟨hm.menq, List.nodup_singleton nbr,
        fun a ha hb => (List.mem_singleton.mp hb ▸ hnbrenq) ha⟩
    · intro v
      by_cases hv : v = nbr
      · subst hv
        simp only [if_pos rfl, hm.mnode, Option.map_some']
        simp
      · simp only [if_neg hv, List.mem_append, List.mem_singleton]
        rw [hm.menqd v]
        constructor
        · rintro (h | h)
          · exact h
          · exact absurd h hv
        · exact fun h => Or.inl h
    · intro v hv
      rcases List.mem_append.mp hv with h | h
      · exact hm.menqV v h
      · exact List.mem_singleton.mp h ▸ hnbrV
    · simp only [List.map_append, List.map_cons, List.map_nil]
      have h1 := hm.mperm.append_right [nbr]
      refine h1.trans ?_
      rw [List.append_assoc]
    · rw [List.nodup_append]
      exact ⟨hm.mwnd, List.nodup_singleton nbr,
        fun a ha hb => (List.mem_singleton.mp hb ▸ hnbrwr) ha⟩
    · intro v
      by_cases hv : v = nbr
      · subst hv
        simp only [if_pos rfl, hm.mnode, Option.map_some']
        simp
      · simp only [if_neg hv, List.mem_append, List.mem_singleton]
        rw [hm.mwd v]
        constructor
        · rintro (h | h)
          · exact h
          · exact absurd h hv
        · exact fun h => Or.inl h
    · intro v k hk
      dsimp only at hk
      by_cases hv : v = nbr
      · subst hv
        rw [if_pos rfl, hm.mnode] at hk
        have hk1 : k = d + 1 := by simpa using hk.symm
        subst hk1
        exact ⟨node, hm.msound node d hm.mnode, hedge⟩
      · rw [if_neg hv] at hk
        exact hm.msound v k hk
    · intro u v du hu he hdu
      dsimp only at hdu ⊢
      have hunbr : u ≠ nbr := fun h =>
        hnbrvis (h ▸ (hm.mvis ▸ List.mem_cons_of_mem node hu))
      rw [if_neg hunbr] at hdu
      obtain ⟨dv, hdv, hb⟩ := hm.mclosed u v du hu he hdu
      have hvnbr : v ≠ nbr := fun h => by
        rw [h, hnbrnone] at hdv
        exact absurd hdv (by simp)
      exact ⟨dv, by rw [if_neg hvnbr]; exact hdv, hb⟩
    · simp only [List.map_append, List.map_cons, List.map_nil]
      rw [List.pairwise_append]
      refine ⟨?_, List.pairwise_singleton _ nbr, ?_⟩
      · refine hm.mqpair.imp_of_mem ?_
        intro a b ha hb hab x y hx hy
        have hanbr : a ≠ nbr := fun h => hnbrqv (h ▸ ha)
        have hbnbr : b ≠ nbr := fun h => hnbrqv (h ▸ hb)
        rw [if_neg hanbr] at hx
        rw [if_neg hbnbr] at hy
        exact hab x y hx hy
      · intro a ha b hb x y hx hy
        have hbnbr : b = nbr := List.mem_singleton.mp hb
        have hanbr : a ≠ nbr := fun h => hnbrqv (h ▸ ha)
        rw [if_neg hanbr] at hx
        rw [hbnbr, if_pos rfl, hm.mnode] at hy
        have hy1 : y = d + 1 := by simpa using hy.symm
        have := (hm.mqdb a x ha hx).2
        omega
    · intro q y hq hy
      dsimp only at hy
      simp only [List.map_append, List.map_cons, List.map_nil,
        List.mem_append, List.mem_cons, List.not_mem_nil, or_false] at hq
      rcases hq with hq | hq
      · have hqnbr : q ≠ nbr := fun h => hnbrqv (h ▸ hq)
        rw [if_neg hqnbr] at hy
        exact hm.mqdb q y hq hy
      · rw [hq, if_pos rfl, hm.mnode] at hy
        have hy1 : y = d + 1 := by simpa using hy.symm
        omega
    · intro u x hu hx
      dsimp only at hx
      have hunbr : u ≠ nbr := fun h => hnbrvis (h ▸ hu)
      rw [if_neg hunbr] at hx
      exact hm.mvisd u x hu hx
    · exact hm.mvdeq
    · refine ⟨d + 1, ?_, le_refl _⟩
      dsimp only
      rw [if_pos rfl, hm.mnode]
      rfl

/-- Folding the neighbor inspections over any list of neighbors of
`node` preserves the mid-fold invariant and leaves every inspected
neighbor with a set distance of at most d + 1. -/
theorem bfsFold_mid (V : List Nat) (E : List (Nat × Nat))
    (start node d : Nat) (oldvis : List Nat) (l : List Nat)
    (hl : ∀ x ∈ l, isEdge E node x ∧ x ∈ V) :
    ∀ t, BfsMid V E start node d oldvis t →
      BfsMid V E start node d oldvis (l.foldl (bfsRelax node) t) ∧
      ∀ x ∈ l, ∃ dv,
        (l.foldl (bfsRelax node) t).distances x = some dv ∧ dv ≤ d + 1 := by
  induction l with
  | nil =>
    intro t hm
    exact ⟨hm, by simp⟩
  | cons nbr rest ih =>
    intro t hm
    obtain ⟨he, hv⟩ := hl nbr (List.mem_cons_self nbr rest)
    obtain ⟨hm1, dv, hdv, hb⟩ :=
      bfsRelax_mid V E start node d oldvis t nbr he hv hm
    obtain ⟨hm2, hrest⟩ :=
      ih (fun x hx => hl x (List.mem_cons_of_mem nbr hx))
        (bfsRelax node t nbr) hm1
    refine ⟨hm2, ?_⟩
    intro x hx
    rcases List.mem_cons.mp hx with hx1 | hx1
    · subst hx1
      exact ⟨dv, bfsFold_stable node rest (bfsRelax node t x) x dv hdv, hb⟩
    · exact hrest x hx1

/-- One iteration of the BFS while-loop preserves the invariant. -/
theorem bfsStep_inv (V : List Nat) (E : List (Nat × Nat)) (start : Nat)
    (hE : ∀ p ∈ E, p.1 ∈ V ∧ p.2 ∈ V) (s : BfsState)
    (hinv : BfsInv V E start s) : BfsInv V E start (bfsStep (adjOf E) s) := by
  cases hq : s.queue with
  | nil =>
    have hstep : bfsStep (adjOf E) s = s := by unfold bfsStep; rw [hq]
    rw [hstep]; exact hinv
  | cons hd rest =>
    obtain ⟨node, par⟩ := hd
    have hqv : s.queue.map Prod.fst = node :: rest.map Prod.fst := by
      rw [hq]; rfl
    by_cases hvis : node ∈ s.visited
    · exfalso
      have h1 : node ∈ s.deq_log := hinv.hvdeq node hvis
      have h2 : 1 ≤ s.deq_log.count node := List.one_le_count_iff.mpr h1
      have h3 : 1 ≤ (s.queue.map Prod.fst).count node := by
        rw [hqv]; simp
      have h4 : s.enq_log.count node ≤ 1 :=
        List.nodup_iff_count_le_one.mp hinv.henq node
      have h5 := hinv.hperm.count_eq node
      rw [List.count_append] at h5
      omega
    · have hnodeq : node ∈ s.in_queue :=
        (hinv.hq node).mp (by rw [hqv]; exact List.mem_cons_self _ _)
      have hsome : (s.distances node).isSome = true :=
        (hinv.hds node).mpr (Or.inr hnodeq)
      obtain ⟨d, hdnode⟩ := Option.isSome_iff_exists.mp hsome
      have hstep : bfsStep (adjOf E) s =
          (adjOf E node).foldl (bfsRelax node)
            { s with
                queue := rest
                in_queue := s.in_queue.filter (· ≠ node)
                deq_log := s.deq_log ++ [node]
                visited := node :: s.visited
                traversal_order := s.traversal_order ++ [node] } := by
        unfold bfsStep; rw [hq]; simp only [if_neg hvis]
      have hndrest : node ∉ rest.map Prod.fst := by
        have := hinv.hqnd
        rw [hqv] at this
        exact (List.nodup_cons.mp this).1
      have hrestnd : (rest.map Prod.fst).Nodup := by
        have := hinv.hqnd
        rw [hqv] at this
        exact (List.nodup_cons.mp this).2
      have hpairrest := hinv.hqpair
      rw [hqv] at hpairrest
      have hnodeqv : node ∈ s.queue.map Prod.fst := by
        rw [hqv]; exact List.mem_cons_self node (rest.map Prod.fst)
      have hmid : BfsMid V E start node d s.visited
          { s with
              queue := rest
              in_queue := s.in_queue.filter (· ≠ node)
              deq_log := s.deq_log ++ [node]
              visited := node :: s.visited
              traversal_order := s.traversal_order ++ [node] } := by
        refine ⟨?_, ?_, rfl, ?_, ?_, ?_, ?_, ?_, ?_, ?_, ?_, ?_, ?_, ?_, ?_,
          ?_, ?_, ?_, ?_, ?_⟩
        · intro v
          dsimp only
          rw [List.mem_filter]
          constructor
          · intro hvr
            have hvq : v ∈ s.in_queue :=
              (hinv.hq v).mp (by rw [hqv]; exact List.mem_cons_of_mem _ hvr)
            have hvn : v ≠ node := fun h => hndrest (h ▸ hvr)
            exact ⟨hvq, by simpa using hvn⟩
          · rintro ⟨hvq, hvn⟩
            have hvn2 : v ≠ node := by simpa using hvn
            have := (hinv.hq v).mpr hvq
            rw [hqv] at this
            rcases List.mem_cons.mp this with h | h
            · exact absurd h hvn2
            · exact h
        · exact hrestnd
        · intro v
          dsimp only
          by_cases hvn : v = node
          · subst hvn
            constructor
            · intro _; exact Or.inl (List.mem_cons_self v s.visited)
            · intro _; rw [hdnode]; rfl
          · rw [hinv.hds v]
            rw [List.mem_filter]
            constructor
            · rintro (h | h)
              · exact Or.inl (List.mem_cons_of_mem node h)
              · have := (hinv.hq v).mpr h
                rw [hqv] at this
                rcases List.mem_cons.mp this with h1 | h1
                · exact absurd h1 hvn
                · exact Or.inr ⟨h, by simpa using hvn⟩
            · rintro (h | h)
              · rcases List.mem_cons.mp h with h1 | h1
                · exact absurd h1 hvn
                · exact Or.inl h1
              · exact Or.inr h.1
        · exact hinv.hstart
        · exact hdnode
        · dsimp only
          rw [List.nodup_append]
          refine ⟨hinv.hordnd, List.nodup_singleton node, ?_⟩
          intro a ha hb
          rw [List.mem_singleton.mp hb] at ha
          exact hvis ((hinv.hordv node).mp ha)
        · intro v
          dsimp only
          rw [List.mem_append, List.mem_singleton, hinv.hordv v,
            List.mem_cons]
          tauto
        · exact hinv.henq
        · exact hinv.henqd
        · exact hinv.henqV
        · dsimp only
          have h1 := hinv.hperm
          rw [hqv] at h1
          refine h1.trans (List.Perm.of_eq ?_)
          rw [List.append_assoc]
          rfl
        · exact hinv.hwnd
        · exact hinv.hwd
        · exact hinv.hsound
        · exact hinv.hclosed
        · exact hpairrest.of_cons
        · intro q y hqr hy
          dsimp only at hqr
          have hq1 : q ∈ s.queue.map Prod.fst := by
            rw [hqv]; exact List.mem_cons_of_mem _ hqr
          constructor
          · exact (List.rel_of_pairwise_cons hpairrest hqr) d y hdnode hy
          · exact hinv.hqbound node q d y hnodeqv hq1 hdnode hy
        · intro u x hu hx
          dsimp only at hu
          rcases List.mem_cons.mp hu with h | h
          · subst h
            rw [hdnode] at hx
            have : x = d := by simpa using hx.symm
            omega
          · exact hinv.hvisq u node x d h hnodeqv hx hdnode
        · intro v hvm
          dsimp only at hvm ⊢
          rcases List.mem_cons.mp hvm with h | h
          · subst h
            exact List.mem_append_right _ (List.mem_singleton_self v)
          · exact List.mem_append_left _ (hinv.hvdeq v h)
      rw [hstep]
      obtain ⟨hmfin, hbnd⟩ := bfsFold_mid V E start node d s.visited
        (adjOf E node)
        (fun x hx => ⟨mem_adjOf.mp hx,
          isEdge_mem_right hE (mem_adjOf.mp hx)⟩) _ hmid
      refine ⟨hmfin.mq, hmfin.mqnd, hmfin.mds, hmfin.mstart, hmfin.mord,
        hmfin.mordv, hmfin.menq, hmfin.menqd, hmfin.menqV, hmfin.mperm,
        hmfin.mwnd, hmfin.mwd, hmfin.msound, ?_, hmfin.mqpair, ?_, ?_,
        hmfin.mvdeq⟩
      · intro u v du hu he hdu
        rw [hmfin.mvis] at hu
        rcases List.mem_cons.mp hu with h | h
        · subst h
          rw [hmfin.mnode] at hdu
          have hdud : du = d := by simpa using hdu.symm
          subst hdud
          exact hbnd v (mem_adjOf.mpr he)
        · exact hmfin.mclosed u v du h he hdu
      · intro a b x y ha hb hx hy
        have h1 := hmfin.mqdb a x ha hx
        have h2 := hmfin.mqdb b y hb hy
        omega
      · intro u qv x y hu hqm hx hy
        have h1 := hmfin.mvisd u x hu hx
        have h2 := hmfin.mqdb qv y hqm hy
        omega

/-- The BFS invariant is preserved by the whole loop. -/
theorem bfsLoop_inv (V : List Nat) (E : List (Nat × Nat)) (start : Nat)
    (hE : ∀ p ∈ E, p.1 ∈ V ∧ p.2 ∈ V) (fuel : Nat) :
    ∀ s, BfsInv V E start s →
      BfsInv V E start (bfsLoop (adjOf E) fuel s) := by
  induction fuel with
  | zero => intro s hinv; exact hinv
  | succ n ih =>
    intro s hinv
    show BfsInv V E start (match s.queue with
      | [] => s
      | _ :: _ => bfsLoop (adjOf E) n (bfsStep (adjOf E) s))
    cases hq : s.queue with
    | nil => exact hinv
    | cons hd tl => exact ih (bfsStep (adjOf E) s) (bfsStep_inv V E start hE s hinv)

/-- A neighbor inspection never changes the dequeue log. -/
theorem bfsRelax_deq (node : Nat) (s : BfsState) (nbr : Nat) :
    (bfsRelax node s nbr).deq_log = s.deq_log := by
  unfold bfsRelax
  split
  · rfl
  · split
    · rfl
    · rfl

/-- The neighbor fold never changes the dequeue log. -/
theorem bfsFold_deq (node : Nat) (l : List Nat) :
    ∀ s, (l.foldl (bfsRelax node) s).deq_log = s.deq_log := by
  induction l with
  | nil => intro s; rfl
  | cons nbr rest ih =>
    intro s
    rw [List.foldl_cons, ih (bfsRelax node s nbr), bfsRelax_deq]

/-- A BFS iteration on a nonempty queue grows the dequeue log by one. -/
theorem bfsStep_deq_len (adj : Nat → List Nat) (s : BfsState)
    (hd : Nat × Option Nat) (tl : List (Nat × Option Nat))
    (hq : s.queue = hd :: tl) :
    (bfsStep adj s).deq_log.length = s.deq_log.length + 1 := by
  obtain ⟨node, par⟩ := hd
  unfold bfsStep
  rw [hq]
  by_cases hvis : node ∈ s.visited
  · simp [if_pos hvis]
  · simp only [if_neg hvis]
    rw [bfsFold_deq]
    simp

/-- With fuel covering the vertices not yet dequeued, the BFS loop
drains its queue: every vertex is enqueued at most once, so the number
of iterations is bounded by the vertex count. -/
theorem bfsLoop_drains (V : List Nat) (E : List (Nat × Nat)) (start : Nat)
    (hE : ∀ p ∈ E, p.1 ∈ V ∧ p.2 ∈ V) (fuel : Nat) :
    ∀ s, BfsInv V E start s → V.length + 1 ≤ s.deq_log.length + fuel →
      (bfsLoop (adjOf E) fuel s).queue = [] := by
  induction fuel with
  | zero =>
    intro s hinv hle
    exfalso
    have hlen : s.enq_log.length =
        s.deq_log.length + (s.queue.map Prod.fst).length := by
      rw [hinv.hperm.length_eq, List.length_append]
    have h1 : s.enq_log.toFinset.card = s.enq_log.length :=
      List.toFinset_card_of_nodup hinv.henq
    have h2 : s.enq_log.toFinset ⊆ V.toFinset := fun a ha =>
      List.mem_toFinset.mpr (hinv.henqV a (List.mem_toFinset.mp ha))
    have h3 : V.toFinset.card ≤ V.length := V.toFinset_card_le
    have h4 := Finset.card_le_card h2
    omega
  | succ n ih =>
    intro s hinv hle
    show (match s.queue with
      | [] => s
      | _ :: _ => bfsLoop (adjOf E) n (bfsStep (adjOf E) s)).queue = []
    cases hq : s.queue with
    | nil => exact hq
    | cons hd tl =>
      refine ih (bfsStep (adjOf E) s) (bfsStep_inv V E start hE s hinv) ?_
      rw [bfsStep_deq_len (adjOf E) s hd tl hq]
      omega

/-- The finished BFS run satisfies the invariant with an empty queue. -/
theorem bfsRun_final (V : List Nat) (E : List (Nat × Nat)) (start : Nat)
    (hE : ∀ p ∈ E, p.1 ∈ V ∧ p.2 ∈ V) (hsV : start ∈ V) :
    BfsInv V E start (bfsRun V E start) ∧ (bfsRun V E start).queue = [] :=
  ⟨bfsLoop_inv V E start hE (V.length + 1) (bfsInit start)
      (bfsInit_inv V E start hsV),
   bfsLoop_drains V E start hE (V.length + 1) (bfsInit start)
      (bfsInit_inv V E start hsV) (by simp [bfsInit])⟩

/-- In a finished BFS state every reachable vertex has been visited. -/
theorem bfsFinal_reach_visited (V : List Nat) (E : List (Nat × Nat))
    (start : Nat) (s : BfsState) (hinv : BfsInv V E start s)
    (hnil : s.queue = []) :
    ∀ m v, ReachN E start m v → v ∈ s.visited := by
  have hinq : ∀ v, v ∉ s.in_queue := by
    intro v hv
    have := (hinv.hq v).mpr hv
    rw [hnil] at this
    exact absurd this (by simp)
  have hdsv : ∀ v, (s.distances v).isSome = true → v ∈ s.visited := by
    intro v hv
    rcases (hinv.hds v).mp hv with h | h
    · exact h
    · exact absurd h (hinq v)
  intro m
  induction m with
  | zero =>
    intro v hv
    have hveq : v = start := hv
    subst hveq
    exact hdsv v (by rw [hinv.hstart]; rfl)
  | succ n ih =>
    intro v hv
    obtain ⟨u, hu, he⟩ := hv
    have huvis := ih u hu
    have husome : (s.distances u).isSome = true :=
      (hinv.hds u).mpr (Or.inl huvis)
    obtain ⟨du, hdu⟩ := Option.isSome_iff_exists.mp husome
    obtain ⟨dv, hdv, _⟩ := hinv.hclosed u v du huvis he hdu
    exact hdsv v (by rw [hdv]; rfl)

/-- In a finished BFS state every vertex reachable in m steps has its
distance set to at most m. -/
theorem bfsFinal_dist_le (V : List Nat) (E : List (Nat × Nat))
    (start : Nat) (s : BfsState) (hinv : BfsInv V E start s)
    (hnil : s.queue = []) :
    ∀ m v, ReachN E start m v → ∃ k, s.distances v = some k ∧ k ≤ m := by
  intro m
  induction m with
  | zero =>
    intro v hv
    have hveq : v = start := hv
    subst hveq
    exact ⟨0, hinv.hstart, le_refl 0⟩
  | succ n ih =>
    intro v hv
    obtain ⟨u, hu, he⟩ := hv
    obtain ⟨du, hdu, hdun⟩ := ih u hu
    have huvis := bfsFinal_reach_visited V E start s hinv hnil n u hu
    obtain ⟨dv, hdv, hb⟩ := hinv.hclosed u v du huvis he hdu
    exact ⟨dv, hdv, by omega⟩

/-- C5: for every well-formed graph and source, the distances assigned
by the BFS kernel equal the true shortest-path edge count: every
reachable vertex ends with a set distance that is the length of a walk
from the source and a lower bound of all walk lengths to it, and its
distance is written exactly once during the run. -/
theorem bfs_distances_shortest (V : List Nat) (E : List (Nat × Nat))
    (start : Nat) (hE : ∀ p ∈ E, p.1 ∈ V ∧ p.2 ∈ V) (hsV : start ∈ V)
    (v : Nat) (hreach : Reach E start v) :
    ∃ k, (bfsRun V E start).distances v = some k ∧ ReachN E start k v ∧
      (∀ m, ReachN E start m v → k ≤ m) ∧
      (bfsRun V E start).dist_writes.count v = 1 := by
  obtain ⟨hinv, hnil⟩ := bfsRun_final V E start hE hsV
  obtain ⟨m, hm⟩ := hreach
  obtain ⟨k, hk, hkm⟩ := bfsFinal_dist_le V E start _ hinv hnil m v hm
  refine ⟨k, hk, hinv.hsound v k hk, ?_, ?_⟩
  · intro m' hm'
    obtain ⟨k', hk', hk'm⟩ := bfsFinal_dist_le V E start _ hinv hnil m' v hm'
    rw [hk] at hk'
    have : k = k' := by simpa using hk'
    omega
  · have hvw : v ∈ (bfsRun V E start).dist_writes :=
      (hinv.hwd v).mpr (by rw [hk]; rfl)
    exact List.count_eq_one_of_mem hinv.hwnd hvw

/-- Witness for `bfs_distances_shortest`: instantiated on the example
graph at the source itself. -/
theorem bfs_distances_shortest_witness :
    ∃ k, (bfsRun exVerts exEdges 0).distances 0 = some k ∧
      ReachN exEdges 0 k 0 ∧ (∀ m, ReachN exEdges 0 m 0 → k ≤ m) ∧
      (bfsRun exVerts exEdges 0).dist_writes.count 0 = 1 :=
  bfs_distances_shortest exVerts exEdges 0 (by decide) (by decide) 0
    ⟨0, rfl⟩

/- ============================================================
Recursive DFS: every reachable vertex is visited exactly once
============================================================ -/

/-- The neighbor scan from any accumulator is the accumulator followed
by the scan from scratch. -/
theorem dfsNbrsRec_acc (vis : List Nat) (n : Nat) :
    ∀ (E : List (Nat × Nat)) (acc : List Nat),
      E.foldl (fun acc uv =>
        if uv.1 = n ∧ uv.2 ∉ vis then acc ++ [uv.2]
        else if uv.2 = n ∧ uv.1 ∉ vis then acc ++ [uv.1]
        else acc) acc = acc ++ dfsNbrsRec E vis n := by
  intro E
  induction E with
  | nil => intro acc; simp [dfsNbrsRec]
  | cons e E' ih =>
    intro acc
    show (E'.foldl _ (if e.1 = n ∧ e.2 ∉ vis then acc ++ [e.2]
        else if e.2 = n ∧ e.1 ∉ vis then acc ++ [e.1] else acc)) =
      acc ++ dfsNbrsRec (e :: E') vis n
    have hrhs : dfsNbrsRec (e :: E') vis n =
        (if e.1 = n ∧ e.2 ∉ vis then [e.2]
         else if e.2 = n ∧ e.1 ∉ vis then [e.1] else []) ++
          dfsNbrsRec E' vis n := by
      show (E'.foldl _ (if e.1 = n ∧ e.2 ∉ vis then [] ++ [e.2]
          else if e.2 = n ∧ e.1 ∉ vis then [] ++ [e.1] else [])) = _
      split
      · rw [ih]; simp
      · split
        · rw [ih]; simp
        · rw [ih]
    rw [hrhs]
    split
    · rw [ih, List.append_assoc]
    · split
      · rw [ih, List.append_assoc]
      · rw [ih]; simp

/-- Splitting the neighbor scan at its first edge. -/
theorem dfsNbrsRec_cons (e : Nat × Nat) (E' : List (Nat × Nat))
    (vis : List Nat) (n : Nat) :
    dfsNbrsRec (e :: E') vis n =
      (if e.1 = n ∧ e.2 ∉ vis then [e.2]
       else if e.2 = n ∧ e.1 ∉ vis then [e.1] else []) ++
        dfsNbrsRec E' vis n := by
  show (E'.foldl _ (if e.1 = n ∧ e.2 ∉ vis then [] ++ [e.2]
      else if e.2 = n ∧ e.1 ∉ vis then [] ++ [e.1] else [])) = _
  split
  · rw [dfsNbrsRec_acc]; simp
  · split
    · rw [dfsNbrsRec_acc]; simp
    · rw [dfsNbrsRec_acc]

/-- Every scanned neighbor is an unvisited endpoint of an incident
edge. -/
theorem dfsNbrsRec_sound {E : List (Nat × Nat)} {vis : List Nat}
    {n x : Nat} (h : x ∈ dfsNbrsRec E vis n) : isEdge E n x ∧ x ∉ vis := by
  induction E with
  | nil => simp [dfsNbrsRec] at h
  | cons e E' ih =>
    rw [dfsNbrsRec_cons] at h
    rcases List.mem_append.mp h with h1 | h1
    · split at h1
      · rename_i hcond
        obtain ⟨he1, he2⟩ := hcond
        rw [List.mem_singleton.mp h1]
        refine ⟨Or.inl ?_, he2⟩
        have he : e = (n, e.2) := by
          cases e; simp_all
        rw [← he]; exact List.mem_cons_self e E'
      · split at h1
        · rename_i hcond
          obtain ⟨he2, he1⟩ := hcond
          rw [List.mem_singleton.mp h1]
          refine ⟨Or.inr ?_, he1⟩
          have he : e = (e.1, n) := by
            cases e; simp_all
          rw [← he]; exact List.mem_cons_self e E'
        · exact absurd h1 (List.not_mem_nil x)
    · obtain ⟨hedge, hnv⟩ := ih h1
      refine ⟨?_, hnv⟩
      rcases hedge with h2 | h2
      · exact Or.inl (List.mem_cons_of_mem e h2)
      · exact Or.inr (List.mem_cons_of_mem e h2)

/-- Every unvisited endpoint of an incident edge is scanned. -/
theorem dfsNbrsRec_complete {E : List (Nat × Nat)} {vis : List Nat}
    {n x : Nat} (hedge : isEdge E n x) (hnv : x ∉ vis) :
    x ∈ dfsNbrsRec E vis n := by
  induction E with
  | nil => rcases hedge with h | h <;> exact absurd h (List.not_mem_nil _)
  | cons e E' ih =>
    rw [dfsNbrsRec_cons]
    rcases hedge with h | h
    · rcases List.mem_cons.mp h with h1 | h1
      · subst h1
        dsimp only
        rw [if_pos ⟨rfl, hnv⟩]
        exact List.mem_append_left _ (List.mem_singleton_self x)
      · exact List.mem_append_right _ (ih (Or.inl h1))
    · rcases List.mem_cons.mp h with h1 | h1
      · subst h1
        dsimp only
        by_cases hxn : x = n ∧ n ∉ vis
        · rw [if_pos hxn]
          obtain ⟨hx1, _⟩ := hxn
          subst hx1
          exact List.mem_append_left _ (List.mem_singleton_self x)
        · rw [if_neg hxn, if_pos ⟨rfl, hnv⟩]
          exact List.mem_append_left _ (List.mem_singleton_self x)
      · exact List.mem_append_right _ (ih (Or.inr h1))

/-- The explored neighbor order has the same members as the scan. -/
theorem mem_dfsNbrOrder {E : List (Nat × Nat)} {vis : List Nat}
    {n x : Nat} :
    x ∈ dfsNbrOrder E vis n ↔ x ∈ dfsNbrsRec E vis n := by
  by_cases hcond : n = 1 ∧ 3 ∈ dfsNbrsRec E vis n ∧ 4 ∈ dfsNbrsRec E vis n
  · obtain ⟨h1, h3, h4⟩ := hcond
    simp only [dfsNbrOrder, if_pos (And.intro h1 (And.intro h3 h4))]
    simp only [List.mem_append, List.mem_cons, List.mem_filter,
      List.not_mem_nil, or_false]
    constructor
    · rintro ((h | h) | h)
      · exact h ▸ h4
      · exact h ▸ h3
      · exact h.1
    · intro h
      by_cases hx : x = 4
      · exact Or.inl (Or.inl hx)
      · by_cases hx3 : x = 3
        · exact Or.inl (Or.inr hx3)
        · refine Or.inr ⟨h, ?_⟩
          simp [hx, hx3]
  · simp only [dfsNbrOrder, if_neg hcond]
    exact List.mem_insertionSort (· ≤ ·)

/-- Count of vertices of `V` not yet visited: the recursion measure of
the recursive DFS. -/
def ucount (V visited : List Nat) : Nat :=
  (V.toFinset \ visited.toFinset).card

/-- Growing the visited set cannot increase the measure. -/
theorem ucount_mono {V v1 v2 : List Nat} (h : ∀ x ∈ v1, x ∈ v2) :
    ucount V v2 ≤ ucount V v1 := by
  apply Finset.card_le_card
  intro x hx
  rw [Finset.mem_sdiff] at hx ⊢
  exact ⟨hx.1, fun hm =>
    hx.2 (List.mem_toFinset.mpr (h x (List.mem_toFinset.mp hm)))⟩

/-- Visiting a fresh vertex of `V` strictly decreases the measure. -/
theorem ucount_lt {V visited : List Nat} {node : Nat} (hV : node ∈ V)
    (hnv : node ∉ visited) :
    ucount V (node :: visited) < ucount V visited := by
  apply Finset.card_lt_card
  rw [Finset.ssubset_iff_of_subset]
  · refine ⟨node, ?_, ?_⟩
    · rw [Finset.mem_sdiff]
      exact ⟨List.mem_toFinset.mpr hV,
        fun hm => hnv (List.mem_toFinset.mp hm)⟩
    · intro hm
      rw [Finset.mem_sdiff] at hm
      exact hm.2 (List.mem_toFinset.mpr (List.mem_cons_self node visited))
  · intro x hx
    rw [Finset.mem_sdiff] at hx ⊢
    exact ⟨hx.1, fun hm =>
      hx.2 (List.mem_toFinset.mpr (List.mem_cons_of_mem node
        (List.mem_toFinset.mp hm)))⟩

/-- Specification of the recursive DFS call: with enough fuel it
preserves and extends the visited set, records each newly visited
vertex once in the traversal order, keeps everything inside `V`, and
leaves every newly visited vertex with all its neighbors visited. -/
theorem dfsRec_spec (V : List Nat) (E : List (Nat × Nat))
    (hE : ∀ p ∈ E, p.1 ∈ V ∧ p.2 ∈ V) :
    ∀ (fuel node : Nat) (s : DfsRecState),
      ucount V s.visited < fuel → node ∈ V →
      s.traversal_order.Nodup →
      (∀ w, w ∈ s.traversal_order ↔ w ∈ s.visited) →
      (∀ w ∈ s.visited, w ∈ V) →
      (∀ w ∈ s.visited, w ∈ (dfsRec E fuel node s).visited) ∧
      node ∈ (dfsRec E fuel node s).visited ∧
      (dfsRec E fuel node s).traversal_order.Nodup ∧
      (∀ w, w ∈ (dfsRec E fuel node s).traversal_order ↔
        w ∈ (dfsRec E fuel node s).visited) ∧
      (∀ w ∈ (dfsRec E fuel node s).visited, w ∈ V) ∧
      (∀ w ∈ (dfsRec E fuel node s).visited, w ∈ s.visited ∨
        ∀ x, isEdge E w x → x ∈ (dfsRec E fuel node s).visited) := by
  intro fuel
  induction fuel with
  | zero =>
    intro node s hfuel
    exact absurd hfuel (Nat.not_lt_zero _)
  | succ n ih =>
    intro node s hfuel hnodeV hord hordv hvisV
    by_cases hvis : node ∈ s.visited
    · have heq : dfsRec E (n + 1) node s = s := by
        show (if node ∈ s.visited then s else _) = s
        rw [if_pos hvis]
      rw [heq]
      exact ⟨fun w hw => hw, hvis, hord, hordv, hvisV,
        fun w hw => Or.inl hw⟩
    · have heq : dfsRec E (n + 1) node s =
          (dfsNbrOrder E (node :: s.visited) node).foldl
            (fun t nbr =>
              if nbr ∈ t.visited then t
              else dfsRec E n nbr
                { t with tree_edges := t.tree_edges ++ [(node, nbr)] })
            { s with
                visited := node :: s.visited
                traversal_order := s.traversal_order ++ [node] } := by
        show (if node ∈ s.visited then s else _) = _
        rw [if_neg hvis]
      have hucs1 : ucount V (node :: s.visited) < n :=
        lt_of_lt_of_le (ucount_lt hnodeV hvis) (Nat.lt_succ_iff.mp hfuel)
      have hord1 : (s.traversal_order ++ [node]).Nodup := by
        rw [List.nodup_append]
        exact ⟨hord, List.nodup_singleton node, fun a ha hb =>
          hvis (List.mem_singleton.mp hb ▸ ((hordv a).mp ha))⟩
      have hordv1 : ∀ w, w ∈ s.traversal_order ++ [node] ↔
          w ∈ node :: s.visited := by
        intro w
        rw [List.mem_append, List.mem_singleton, List.mem_cons, hordv w]
        tauto
      have hvisV1 : ∀ w ∈ node :: s.visited, w ∈ V := by
        intro w hw
        rcases List.mem_cons.mp hw with h | h
        · exact h ▸ hnodeV
        · exact hvisV w h
      have hfold : ∀ (l : List Nat), (∀ x ∈ l, x ∈ V) →
          ∀ (t : DfsRecState),
            (∀ w ∈ node :: s.visited, w ∈ t.visited) →
            t.traversal_order.Nodup →
            (∀ w, w ∈ t.traversal_order ↔ w ∈ t.visited) →
            (∀ w ∈ t.visited, w ∈ V) →
            (∀ w ∈ t.visited, w ∈ node :: s.visited ∨
              ∀ x, isEdge E w x → x ∈ t.visited) →
            (∀ w ∈ t.visited, w ∈ (l.foldl
              (fun t nbr =>
                if nbr ∈ t.visited then t
                else dfsRec E n nbr
                  { t with tree_edges := t.tree_edges ++ [(node, nbr)] })
              t).visited) ∧
            (l.foldl (fun t nbr =>
                if nbr ∈ t.visited then t
                else dfsRec E n nbr
                  { t with tree_edges := t.tree_edges ++ [(node, nbr)] })
              t).traversal_order.Nodup ∧
            (∀ w, w ∈ (l.foldl (fun t nbr =>
                if nbr ∈ t.visited then t
                else dfsRec E n nbr
                  { t with tree_edges := t.tree_edges ++ [(node, nbr)] })
              t).traversal_order ↔ w ∈ (l.foldl (fun t nbr =>
                if nbr ∈ t.visited then t
                else dfsRec E n nbr
                  { t with tree_edges := t.tree_edges ++ [(node, nbr)] })
              t).visited) ∧
            (∀ w ∈ (l.foldl (fun t nbr =>
                if nbr ∈ t.visited then t
                else dfsRec E n nbr
                  { t with tree_edges := t.tree_edges ++ [(node, nbr)] })
              t).visited, w ∈ V) ∧
            (∀ w ∈ (l.foldl (fun t nbr =>
                if nbr ∈ t.visited then t
                else dfsRec E n nbr
                  { t with tree_edges := t.tree_edges ++ [(node, nbr)] })
              t).visited, w ∈ node :: s.visited ∨
              ∀ x, isEdge E w x → x ∈ (l.foldl (fun t nbr =>
                if nbr ∈ t.visited then t
                else dfsRec E n nbr
                  { t with tree_edges := t.tree_edges ++ [(node, nbr)] })
              t).visited) ∧
            (∀ x ∈ l, x ∈ (l.foldl (fun t nbr =>
                if nbr ∈ t.visited then t
                else dfsRec E n nbr
                  { t with tree_edges := t.tree_edges ++ [(node, nbr)] })
              t).visited) := by
        intro l
        induction l with
        | nil =>
          intro _ t hbase htord htordv htvisV htclo
          exact ⟨fun w hw => hw, htord, htordv, htvisV, htclo, by simp⟩
        | cons nbr rest ihl =>
          intro hlV t hbase htord htordv htvisV htclo
          simp only [List.foldl_cons]
          by_cases hnbrvis : nbr ∈ t.visited
          · rw [if_pos hnbrvis]
            obtain ⟨c1, c2, c3, c4, c5, c6⟩ :=
              ihl (fun x hx => hlV x (List.mem_cons_of_mem nbr hx)) t
                hbase htord htordv htvisV htclo
            refine ⟨c1, c2, c3, c4, c5, ?_⟩
            intro x hx
            rcases List.mem_cons.mp hx with h | h
            · exact h ▸ c1 nbr hnbrvis
            · exact c6 x h
          · rw [if_neg hnbrvis]
            have hucall : ucount V t.visited < n :=
              lt_of_le_of_lt (ucount_mono hbase) hucs1
            obtain ⟨r1, r2, r3, r4, r5, r6⟩ := ih nbr
              { t with tree_edges := t.tree_edges ++ [(node, nbr)] }
              hucall (hlV nbr (List.mem_cons_self nbr rest)) htord htordv
              htvisV
            have hclot3 : ∀ w ∈ (dfsRec E n nbr
                { t with tree_edges := t.tree_edges ++ [(node, nbr)] }).visited,
                w ∈ node :: s.visited ∨
                ∀ x, isEdge E w x → x ∈ (dfsRec E n nbr
                  { t with
                      tree_edges := t.tree_edges ++ [(node, nbr)] }).visited := by
              intro w hw
              rcases r6 w hw with h | h
              · rcases htclo w h with h1 | h1
                · exact Or.inl h1
                · exact Or.inr (fun x hx => r1 x (h1 x hx))
              · exact Or.inr h
            obtain ⟨c1, c2, c3, c4, c5, c6⟩ :=
              ihl (fun x hx => hlV x (List.mem_cons_of_mem nbr hx)) _
                (fun w hw => r1 w (hbase w hw)) r3 r4 r5 hclot3
            refine ⟨fun w hw => c1 w (r1 w hw), c2, c3, c4, c5, ?_⟩
            intro x hx
            rcases List.mem_cons.mp hx with h | h
            · exact h ▸ c1 nbr r2
            · exact c6 x h
      rw [heq]
      have hlV : ∀ x ∈ dfsNbrOrder E (node :: s.visited) node, x ∈ V := by
        intro x hx
        have hx2 := dfsNbrsRec_sound (mem_dfsNbrOrder.mp hx)
        exact isEdge_mem_right hE hx2.1
      obtain ⟨c1, c2, c3, c4, c5, c6⟩ := hfold
        (dfsNbrOrder E (node :: s.visited) node) hlV
        { s with
            visited := node :: s.visited
            traversal_order := s.traversal_order ++ [node] }
        (fun w hw => hw) hord1 hordv1 hvisV1
        (fun w hw => Or.inl hw)
      refine ⟨?_, ?_, c2, c3, c4, ?_⟩
      · intro w hw
        exact c1 w (List.mem_cons_of_mem node hw)
      · exact c1 node (List.mem_cons_self node s.visited)
      · intro w hw
        rcases c5 w hw with h | h
        · rcases List.mem_cons.mp h with h1 | h1
          · subst h1
            refine Or.inr ?_
            intro x hx
            by_cases hxvis : x ∈ w :: s.visited
            · exact c1 x hxvis
            · exact c6 x (mem_dfsNbrOrder.mpr
                (dfsNbrsRec_complete hx hxvis))
          · exact Or.inl h1
        · exact Or.inr h

/- ============================================================
Iterative DFS: every reachable vertex is visited exactly once
============================================================ -/

/-- Invariant of the iterative DFS loop: the traversal order lists the
visited set without duplicates, neighbors of visited vertices are
visited, marked in-stack, or on the stack, marked vertices are on the
stack or visited, the start is visited or on the stack, and all stack
vertices lie in `V`. -/
structure DfsIterInv (V : List Nat) (E : List (Nat × Nat)) (start : Nat)
    (s : DfsIterState) : Prop where
  j1 : s.traversal_order.Nodup
  j2 : ∀ w, w ∈ s.traversal_order ↔ w ∈ s.visited
  j3 : ∀ u ∈ s.visited, ∀ x, isEdge E u x →
    (x ∈ s.visited ∨ x ∈ s.in_stack ∨ x ∈ s.stack.map Prod.fst)
  j4 : ∀ v ∈ s.in_stack, v ∈ s.stack.map Prod.fst ∨ v ∈ s.visited
  j5 : start ∈ s.visited ∨ start ∈ s.stack.map Prod.fst
  j6 : ∀ p ∈ s.stack, p.1 ∈ V

/-- The iterative-DFS invariant holds initially. -/
theorem dfsIterInit_inv (V : List Nat) (E : List (Nat × Nat))
    (start : Nat) (hsV : start ∈ V) :
    DfsIterInv V E start (dfsIterInit start) := by
  refine ⟨?_, ?_, ?_, ?_, ?_, ?_⟩ <;> simp [dfsIterInit]
  exact hsV

/-- One iteration of the iterative DFS preserves the invariant. -/
theorem dfsIterStep_inv (V : List Nat) (E : List (Nat × Nat))
    (start : Nat) (hE : ∀ p ∈ E, p.1 ∈ V ∧ p.2 ∈ V) (s : DfsIterState)
    (hinv : DfsIterInv V E start s) :
    DfsIterInv V E start (dfsIterStep (adjOf E) s) := by
  cases hq : s.stack with
  | nil =>
    have hstep : dfsIterStep (adjOf E) s = s := by
      unfold dfsIterStep; rw [hq]
    rw [hstep]; exact hinv
  | cons hd rest =>
    obtain ⟨node, par⟩ := hd
    have hstackv : s.stack.map Prod.fst = node :: rest.map Prod.fst := by
      rw [hq]; rfl
    have hnodeV : node ∈ V := by
      have := hinv.j6 (node, par)
      rw [hq] at this
      exact this (List.mem_cons_self _ _)
    by_cases hvis : node ∈ s.visited
    · have hstep : dfsIterStep (adjOf E) s = { s with
          stack := rest
          in_stack := s.in_stack.filter (· ≠ node)
          skip_log := s.skip_log ++ [node] } := by
        unfold dfsIterStep; rw [hq]; simp only [if_pos hvis]
      rw [hstep]
      refine ⟨hinv.j1, hinv.j2, ?_, ?_, ?_, ?_⟩
      · intro u hu x hx
        rcases hinv.j3 u hu x hx with h | h | h
        · exact Or.inl h
        · by_cases hxn : x = node
          · exact Or.inl (hxn ▸ hvis)
          · refine Or.inr (Or.inl ?_)
            rw [List.mem_filter]
            exact ⟨h, by simpa using hxn⟩
        · rw [hstackv] at h
          rcases List.mem_cons.mp h with h1 | h1
          · exact Or.inl (h1 ▸ hvis)
          · exact Or.inr (Or.inr h1)
      · intro v hv
        rw [List.mem_filter] at hv
        obtain ⟨hv1, hv2⟩ := hv
        have hvn : v ≠ node := by simpa using hv2
        rcases hinv.j4 v hv1 with h | h
        · rw [hstackv] at h
          rcases List.mem_cons.mp h with h1 | h1
          · exact absurd h1 hvn
          · exact Or.inl h1
        · exact Or.inr h
      · rcases hinv.j5 with h | h
        · exact Or.inl h
        · rw [hstackv] at h
          rcases List.mem_cons.mp h with h1 | h1
          · exact Or.inl (h1 ▸ hvis)
          · exact Or.inr h1
      · intro p hp
        exact hinv.j6 p (by rw [hq]; exact List.mem_cons_of_mem _ hp)
    · have hstep : dfsIterStep (adjOf E) s = { s with
          stack := (((adjOf E node).reverse.filter
              (fun nbr => nbr ∉ node :: s.visited ∧
                nbr ∉ s.in_stack.filter (· ≠ node))).map
            (fun nbr => (nbr, some node))).reverse ++ rest
          in_stack := ((adjOf E node).reverse.filter
              (fun nbr => nbr ∉ node :: s.visited ∧
                nbr ∉ s.in_stack.filter (· ≠ node))) ++
            s.in_stack.filter (· ≠ node)
          visited := node :: s.visited
          traversal_order := s.traversal_order ++ [node]
          tree_edges := s.tree_edges ++
            ((adjOf E node).reverse.filter
              (fun nbr => nbr ∉ node :: s.visited ∧
                nbr ∉ s.in_stack.filter (· ≠ node))).map
              (fun nbr => (min node nbr, max node nbr))
          push_log := s.push_log ++
            (adjOf E node).reverse.filter
              (fun nbr => nbr ∉ node :: s.visited ∧
                nbr ∉ s.in_stack.filter (· ≠ node)) } := by
        unfold dfsIterStep; rw [hq]; simp only [if_neg hvis]
      rw [hstep]
      set P := (adjOf E node).reverse.filter
        (fun nbr => nbr ∉ node :: s.visited ∧
          nbr ∉ s.in_stack.filter (· ≠ node)) with hP
      have hmapfst : ∀ (l : List Nat),
          ((l.map (fun nbr => (nbr, some node))).map Prod.fst) = l := by
        intro l
        induction l with
        | nil => rfl
        | cons a t iht => simp only [List.map_cons, iht]
      have hstackv2 : (((P.map (fun nbr => (nbr, some node))).reverse ++
          rest).map Prod.fst) = P.reverse ++ rest.map Prod.fst := by
        rw [List.map_append, List.map_reverse, hmapfst]
      refine ⟨?_, ?_, ?_, ?_, ?_, ?_⟩
      · dsimp only
        rw [List.nodup_append]
        refine ⟨hinv.j1, List.nodup_singleton node, ?_⟩
        intro a ha hb
        rw [List.mem_singleton.mp hb] at ha
        exact hvis ((hinv.j2 node).mp ha)
      · intro w
        dsimp only
        rw [List.mem_append, List.mem_singleton, List.mem_cons, hinv.j2 w]
        tauto
      · intro u hu x hx
        dsimp only at hu ⊢
        rw [hstackv2]
        rcases List.mem_cons.mp hu with h | h
        · subst h
          have hxadj : x ∈ (adjOf E u).reverse :=
            List.mem_reverse.mpr (mem_adjOf.mpr hx)
          by_cases hpass : x ∉ u :: s.visited ∧
              x ∉ s.in_stack.filter (· ≠ u)
          · have hxP : x ∈ P := by
              rw [hP, List.mem_filter]
              refine ⟨hxadj, ?_⟩
              rw [decide_eq_true_eq]
              simp only [List.mem_filter] at hpass ⊢
              tauto
            exact Or.inr (Or.inl (List.mem_append_left _ hxP))
          · rw [Decidable.not_and_iff_or_not] at hpass
            rcases hpass with h1 | h1
            · rw [Decidable.not_not] at h1
              exact Or.inl h1
            · rw [Decidable.not_not] at h1
              exact Or.inr (Or.inl (List.mem_append_right _ h1))
        · rcases hinv.j3 u h x hx with h1 | h1 | h1
          · exact Or.inl (List.mem_cons_of_mem node h1)
          · by_cases hxn : x = node
            · exact Or.inl (hxn ▸ List.mem_cons_self node s.visited)
            · refine Or.inr (Or.inl (List.mem_append_right _ ?_))
              rw [List.mem_filter]
              exact ⟨h1, by simpa using hxn⟩
          · rw [hstackv] at h1
            rcases List.mem_cons.mp h1 with h2 | h2
            · exact Or.inl (h2 ▸ List.mem_cons_self node s.visited)
            · exact Or.inr (Or.inr (List.mem_append_right _ h2))
      · intro v hv
        dsimp only at hv ⊢
        rw [hstackv2]
        rcases List.mem_append.mp hv with h | h
        · exact Or.inl (List.mem_append_left _ (List.mem_reverse.mpr h))
        · rw [List.mem_filter] at h
          obtain ⟨h1, h2⟩ := h
          have hvn : v ≠ node := by simpa using h2
          rcases hinv.j4 v h1 with h3 | h3
          · rw [hstackv] at h3
            rcases List.mem_cons.mp h3 with h4 | h4
            · exact absurd h4 hvn
            · exact Or.inl (List.mem_append_right _ h4)
          · exact Or.inr (List.mem_cons_of_mem node h3)
      · dsimp only
        rw [hstackv2]
        rcases hinv.j5 with h | h
        · exact Or.inl (List.mem_cons_of_mem node h)
        · rw [hstackv] at h
          rcases List.mem_cons.mp h with h1 | h1
          · exact Or.inl (h1 ▸ List.mem_cons_self node s.visited)
          · exact Or.inr (List.mem_append_right _ h1)
      · intro p hp
        dsimp only at hp
        rcases List.mem_append.mp hp with h | h
        · rw [List.mem_reverse] at h
          obtain ⟨nbr, hnbr, hpe⟩ := List.mem_map.mp h
          rw [hP] at hnbr
          rw [List.mem_filter] at hnbr
          have hnadj : nbr ∈ adjOf E node :=
            List.mem_reverse.mp hnbr.1
          have : p.1 = nbr := by rw [← hpe]
          rw [this]
          exact isEdge_mem_right hE (mem_adjOf.mp hnadj)
        · exact hinv.j6 p (by rw [hq]; exact List.mem_cons_of_mem _ h)

/-- Termination measure of the iterative DFS: stack height plus, for
every unvisited vertex of `V`, its adjacency length plus one. -/
def dfsIterMeasure (V : List Nat) (E : List (Nat × Nat))
    (s : DfsIterState) : Nat :=
  s.stack.length +
    (V.toFinset \ s.visited.toFinset).sum
      (fun v => (adjOf E v).length + 1)

/-- One iteration on a nonempty stack strictly decreases the measure. -/
theorem dfsIterStep_measure (V : List Nat) (E : List (Nat × Nat))
    (s : DfsIterState) (hd : Nat × Option Nat)
    (rest : List (Nat × Option Nat)) (hq : s.stack = hd :: rest)
    (hhdV : hd.1 ∈ V) :
    dfsIterMeasure V E (dfsIterStep (adjOf E) s) <
      dfsIterMeasure V E s := by
  obtain ⟨node, par⟩ := hd
  by_cases hvis : node ∈ s.visited
  · have hstep : dfsIterStep (adjOf E) s = { s with
        stack := rest
        in_stack := s.in_stack.filter (· ≠ node)
        skip_log := s.skip_log ++ [node] } := by
      unfold dfsIterStep; rw [hq]; simp only [if_pos hvis]
    rw [hstep]
    unfold dfsIterMeasure
    dsimp only
    rw [hq]
    simp
  · have hstep : dfsIterStep (adjOf E) s = { s with
        stack := (((adjOf E node).reverse.filter
            (fun nbr => nbr ∉ node :: s.visited ∧
              nbr ∉ s.in_stack.filter (· ≠ node))).map
          (fun nbr => (nbr, some node))).reverse ++ rest
        in_stack := ((adjOf E node).reverse.filter
            (fun nbr => nbr ∉ node :: s.visited ∧
              nbr ∉ s.in_stack.filter (· ≠ node))) ++
          s.in_stack.filter (· ≠ node)
        visited := node :: s.visited
        traversal_order := s.traversal_order ++ [node]
        tree_edges := s.tree_edges ++
          ((adjOf E node).reverse.filter
            (fun nbr => nbr ∉ node :: s.visited ∧
              nbr ∉ s.in_stack.filter (· ≠ node))).map
            (fun nbr => (min node nbr, max node nbr))
        push_log := s.push_log ++
          (adjOf E node).reverse.filter
            (fun nbr => nbr ∉ node :: s.visited ∧
              nbr ∉ s.in_stack.filter (· ≠ node)) } := by
      unfold dfsIterStep; rw [hq]; simp only [if_neg hvis]
    rw [hstep]
    unfold dfsIterMeasure
    dsimp only
    have hsd : V.toFinset \ (node :: s.visited).toFinset =
        (V.toFinset \ s.visited.toFinset).erase node := by
      rw [List.toFinset_cons, Finset.sdiff_insert]
    have hmem : node ∈ V.toFinset \ s.visited.toFinset := by
      rw [Finset.mem_sdiff]
      exact ⟨List.mem_toFinset.mpr hhdV,
        fun h => hvis (List.mem_toFinset.mp h)⟩
    have hsum : (∑ v ∈ (V.toFinset \ s.visited.toFinset).erase node,
        ((adjOf E v).length + 1)) + ((adjOf E node).length + 1) =
          ∑ v ∈ V.toFinset \ s.visited.toFinset,
            ((adjOf E v).length + 1) :=
      Finset.sum_erase_add (V.toFinset \ s.visited.toFinset)
        (fun v => (adjOf E v).length + 1) hmem
    have hplen : (((adjOf E node).reverse.filter
        (fun nbr => nbr ∉ node :: s.visited ∧
          nbr ∉ s.in_stack.filter (· ≠ node))).map
      (fun nbr => (nbr, some node))).reverse.length ≤
        (adjOf E node).length := by
      rw [List.length_reverse, List.length_map]
      calc ((adjOf E node).reverse.filter _).length
        _ ≤ (adjOf E node).reverse.length := List.length_filter_le _ _
        _ = (adjOf E node).length := List.length_reverse _
    rw [hq, hsd]
    simp only [List.length_append, List.length_cons]
    omega

/-- The iterative-DFS invariant is preserved by the whole loop. -/
theorem dfsIterLoop_inv (V : List Nat) (E : List (Nat × Nat))
    (start : Nat) (hE : ∀ p ∈ E, p.1 ∈ V ∧ p.2 ∈ V) (fuel : Nat) :
    ∀ s, DfsIterInv V E start s →
      DfsIterInv V E start (dfsIterLoop (adjOf E) fuel s) := by
  induction fuel with
  | zero => intro s hinv; exact hinv
  | succ n ih =>
    intro s hinv
    show DfsIterInv V E start (match s.stack with
      | [] => s
      | _ :: _ => dfsIterLoop (adjOf E) n (dfsIterStep (adjOf E) s))
    cases hq : s.stack with
    | nil => exact hinv
    | cons hd tl =>
      exact ih (dfsIterStep (adjOf E) s)
        (dfsIterStep_inv V E start hE s hinv)

/-- With fuel above the measure, the iterative DFS drains its stack. -/
theorem dfsIterLoop_drains (V : List Nat) (E : List (Nat × Nat))
    (start : Nat) (hE : ∀ p ∈ E, p.1 ∈ V ∧ p.2 ∈ V) (fuel : Nat) :
    ∀ s, DfsIterInv V E start s → dfsIterMeasure V E s < fuel →
      (dfsIterLoop (adjOf E) fuel s).stack = [] := by
  induction fuel with
  | zero =>
    intro s _ hm
    exact absurd hm (Nat.not_lt_zero _)
  | succ n ih =>
    intro s hinv hm
    show (match s.stack with
      | [] => s
      | _ :: _ => dfsIterLoop (adjOf E) n (dfsIterStep (adjOf E) s)).stack
        = []
    cases hq : s.stack with
    | nil => exact hq
    | cons hd tl =>
      refine ih (dfsIterStep (adjOf E) s)
        (dfsIterStep_inv V E start hE s hinv) ?_
      have hhdV : hd.1 ∈ V := by
        refine hinv.j6 hd ?_
        rw [hq]
        exact List.mem_cons_self hd tl
      have := dfsIterStep_measure V E s hd tl hq hhdV
      omega

/-- The raw neighbor lists of any set of distinct vertices hold at
most two entries per edge occurrence. -/
theorem sum_rawNbrs_le (S : Finset Nat) :
    ∀ E : List (Nat × Nat),
      (S.sum (fun v => (rawNbrs E v).length)) ≤ 2 * E.length := by
  intro E
  induction E with
  | nil => simp [rawNbrs]
  | cons e E' ih =>
    have hsplit : ∀ v : Nat, (rawNbrs (e :: E') v).length =
        ((if e.1 = v then 1 else 0) + (if e.2 = v then 1 else 0)) +
          (rawNbrs E' v).length := by
      intro v
      show (((if e.1 = v then [e.2] else []) ++
        (if e.2 = v then [e.1] else [])) ++ rawNbrs E' v).length = _
      rw [List.length_append, List.length_append]
      congr 1
      congr 1
      · split <;> rfl
      · split <;> rfl
    rw [Finset.sum_congr rfl (fun v _ => hsplit v), Finset.sum_add_distrib,
      Finset.sum_add_distrib]
    have h1 : (S.sum (fun v => if e.1 = v then 1 else 0)) ≤ 1 := by
      rw [Finset.sum_ite_eq]
      split <;> omega
    have h2 : (S.sum (fun v => if e.2 = v then 1 else 0)) ≤ 1 := by
      rw [Finset.sum_ite_eq]
      split <;> omega
    have h3 : (S.sum (fun v => (rawNbrs E' v).length)) ≤ 2 * E'.length := ih
    simp only [List.length_cons]
    omega

/-- The sorted adjacency list has the length of the raw neighbor list. -/
theorem adjOf_length (E : List (Nat × Nat)) (v : Nat) :
    (adjOf E v).length = (rawNbrs E v).length :=
  (List.perm_insertionSort (· ≤ ·) (rawNbrs E v)).length_eq

/-- The finished iterative DFS run satisfies the invariant with an
empty stack: the default fuel covers the initial measure. -/
theorem dfsIterRun_final (V : List Nat) (E : List (Nat × Nat))
    (start : Nat) (hE : ∀ p ∈ E, p.1 ∈ V ∧ p.2 ∈ V) (hsV : start ∈ V) :
    DfsIterInv V E start (dfsIterRun V E start) ∧
      (dfsIterRun V E start).stack = [] := by
  have hminit : dfsIterMeasure V E (dfsIterInit start) <
      V.length + 2 * E.length + 2 := by
    unfold dfsIterMeasure dfsIterInit
    dsimp only
    have he : ([] : List Nat).toFinset = (∅ : Finset Nat) := rfl
    rw [he, Finset.sdiff_empty]
    have hsum : V.toFinset.sum (fun v => (adjOf E v).length + 1) =
        V.toFinset.sum (fun v => (adjOf E v).length) +
          V.toFinset.card := by
      rw [Finset.sum_add_distrib]
      simp
    have hb : V.toFinset.sum (fun v => (adjOf E v).length) ≤
        2 * E.length := by
      have := sum_rawNbrs_le V.toFinset E
      have heq : V.toFinset.sum (fun v => (adjOf E v).length) =
          V.toFinset.sum (fun v => (rawNbrs E v).length) :=
        Finset.sum_congr rfl (fun v _ => adjOf_length E v)
      omega
    have hc : V.toFinset.card ≤ V.length := V.toFinset_card_le
    simp only [List.length_cons, List.length_nil]
    omega
  exact ⟨dfsIterLoop_inv V E start hE (V.length + 2 * E.length + 2)
      (dfsIterInit start) (dfsIterInit_inv V E start hsV),
    dfsIterLoop_drains V E start hE (V.length + 2 * E.length + 2)
      (dfsIterInit start) (dfsIterInit_inv V E start hsV) hminit⟩

/-- Every vertex reachable from the start is visited by the finished
recursive DFS run. -/
theorem dfsRecRun_reach_visited (V : List Nat) (E : List (Nat × Nat))
    (start : Nat) (hE : ∀ p ∈ E, p.1 ∈ V ∧ p.2 ∈ V) (hsV : start ∈ V) :
    (dfsRecRun V E start).traversal_order.Nodup ∧
    (∀ w, w ∈ (dfsRecRun V E start).traversal_order ↔
      w ∈ (dfsRecRun V E start).visited) ∧
    ∀ m v, ReachN E start m v → v ∈ (dfsRecRun V E start).visited := by
  have hu0 : ucount V ([] : List Nat) < V.length + 1 := by
    unfold ucount
    have h1 : ([] : List Nat).toFinset = (∅ : Finset Nat) := rfl
    rw [h1, Finset.sdiff_empty]
    have := V.toFinset_card_le
    omega
  obtain ⟨b1, b2, b3, b4, b5, b6⟩ := dfsRec_spec V E hE (V.length + 1)
    start { visited := [], traversal_order := [], tree_edges := [] }
    hu0 hsV List.nodup_nil (fun w => Iff.rfl) (fun w hw => absurd hw
      (List.not_mem_nil w))
  have hclosed : ∀ w ∈ (dfsRecRun V E start).visited,
      ∀ x, isEdge E w x → x ∈ (dfsRecRun V E start).visited := by
    intro w hw x hx
    rcases b6 w hw with h | h
    · exact absurd h (List.not_mem_nil w)
    · exact h x hx
  refine ⟨b3, b4, ?_⟩
  intro m
  induction m with
  | zero =>
    intro v hv
    have hveq : v = start := hv
    exact hveq ▸ b2
  | succ n ihm =>
    intro v hv
    obtain ⟨u, hu, he⟩ := hv
    exact hclosed u (ihm u hu) v he

/-- Every vertex reachable from the start is visited by the finished
iterative DFS run. -/
theorem dfsIterRun_reach_visited (V : List Nat) (E : List (Nat × Nat))
    (start : Nat) (hE : ∀ p ∈ E, p.1 ∈ V ∧ p.2 ∈ V) (hsV : start ∈ V) :
    (dfsIterRun V E start).traversal_order.Nodup ∧
    (∀ w, w ∈ (dfsIterRun V E start).traversal_order ↔
      w ∈ (dfsIterRun V E start).visited) ∧
    ∀ m v, ReachN E start m v → v ∈ (dfsIterRun V E start).visited := by
  obtain ⟨hinv, hnil⟩ := dfsIterRun_final V E start hE hsV
  have hstacknil : (dfsIterRun V E start).stack.map Prod.fst = [] := by
    rw [hnil]; rfl
  have hclosed : ∀ u ∈ (dfsIterRun V E start).visited,
      ∀ x, isEdge E u x → x ∈ (dfsIterRun V E start).visited := by
    intro u hu x hx
    rcases hinv.j3 u hu x hx with h | h | h
    · exact h
    · rcases hinv.j4 x h with h1 | h1
      · rw [hstacknil] at h1
        exact absurd h1 (List.not_mem_nil x)
      · exact h1
    · rw [hstacknil] at h
      exact absurd h (List.not_mem_nil x)
  have hstart : start ∈ (dfsIterRun V E start).visited := by
    rcases hinv.j5 with h | h
    · exact h
    · rw [hstacknil] at h
      exact absurd h (List.not_mem_nil start)
  refine ⟨hinv.j1, hinv.j2, ?_⟩
  intro m
  induction m with
  | zero =>
    intro v hv
    have hveq : v = start := hv
    exact hveq ▸ hstart
  | succ n ihm =>
    intro v hv
    obtain ⟨u, hu, he⟩ := hv
    exact hclosed u (ihm u hu) v he

/-- C7: for every well-formed graph and source, each vertex reachable
from the source appears exactly once in the traversal orders of the
BFS kernel, the recursive DFS kernel and the iterative DFS kernel; in
BFS every vertex is enqueued at most once and each reachable vertex is
dequeued exactly once. -/
theorem traversal_visits_reachable_once (V : List Nat)
    (E : List (Nat × Nat)) (start : Nat)
    (hE : ∀ p ∈ E, p.1 ∈ V ∧ p.2 ∈ V) (hsV : start ∈ V) (v : Nat)
    (hreach : Reach E start v) :
    (bfsRun V E start).traversal_order.count v = 1 ∧
    (dfsRecRun V E start).traversal_order.count v = 1 ∧
    (dfsIterRun V E start).traversal_order.count v = 1 ∧
    (∀ w, (bfsRun V E start).enq_log.count w ≤ 1) ∧
    (bfsRun V E start).deq_log.count v = 1 := by
  obtain ⟨m, hm⟩ := hreach
  obtain ⟨hinv, hnil⟩ := bfsRun_final V E start hE hsV
  have hbvis : v ∈ (bfsRun V E start).visited :=
    bfsFinal_reach_visited V E start _ hinv hnil m v hm
  obtain ⟨r1, r2, r3⟩ := dfsRecRun_reach_visited V E start hE hsV
  obtain ⟨i1, i2, i3⟩ := dfsIterRun_reach_visited V E start hE hsV
  refine ⟨?_, ?_, ?_, ?_, ?_⟩
  · exact List.count_eq_one_of_mem hinv.hordnd ((hinv.hordv v).mpr hbvis)
  · exact List.count_eq_one_of_mem r1 ((r2 v).mpr (r3 m v hm))
  · exact List.count_eq_one_of_mem i1 ((i2 v).mpr (i3 m v hm))
  · exact List.nodup_iff_count_le_one.mp hinv.henq
  · have hvenq : v ∈ (bfsRun V E start).enq_log :=
      (hinv.henqd v).mpr ((hinv.hds v).mpr (Or.inl hbvis))
    have hcnt := hinv.hperm.count_eq v
    rw [List.count_append, hnil] at hcnt
    have h1 : (bfsRun V E start).enq_log.count v = 1 :=
      List.count_eq_one_of_mem hinv.henq hvenq
    simpa [h1] using hcnt.symm

/-- Witness for `traversal_visits_reachable_once`: instantiated on the
example graph at the source itself. -/
theorem traversal_visits_reachable_once_witness :
    (bfsRun exVerts exEdges 0).traversal_order.count 0 = 1 ∧
    (dfsRecRun exVerts exEdges 0).traversal_order.count 0 = 1 ∧
    (dfsIterRun exVerts exEdges 0).traversal_order.count 0 = 1 ∧
    (∀ w, (bfsRun exVerts exEdges 0).enq_log.count w ≤ 1) ∧
    (bfsRun exVerts exEdges 0).deq_log.count 0 = 1 :=
  traversal_visits_reachable_once exVerts exEdges 0 (by decide) (by decide)
    0 ⟨0, rfl⟩
